import Mathlib

/-!
Shallow embedding of the grist-api TypeScript client (src/lib/grist-api.ts):
cell values, records, the JSON-based key serialization used for matching,
the column-oriented wire codec, the record grouping/chunking used by
updateRecords, and the syncTable reconciliation algorithm, together with
proofs of the specification claims.

Modelling conventions:
* JavaScript objects are modelled as insertion-ordered association lists
  `List (String × Option CellValue)`; a pair `(k, none)` models a key that is
  present but holds `undefined`, while absence of the key models a missing
  property.  Real objects cannot hold duplicate keys, so claims about records
  carry a `WFRec` (no-duplicate-keys) hypothesis where behaviour depends on it.
* JavaScript numbers are modelled as integers (`Int`); the compound cell form
  `[string, any]` is modelled as a string tag plus one cell-value payload.
* `!==` / `Array.includes` comparisons are modelled by `jsStrictEq`, under
  which a compound value is distinct from everything (reference inequality of
  freshly produced arrays), matching the TODO comments in the source.
* `JSON.stringify` is modelled by an explicit character-level printer
  (`jsonChars`), with `undefined` entries of an array printed as `null`,
  exactly as `JSON.stringify` does.  String escaping covers quote and
  backslash; control-character escapes do not arise in the claims.
* The remote server (an out-of-scope collaborator per the spec) is modelled as
  a list of rows: fetch filters rows by value membership, a PATCH sets the
  supplied columns of the row with the matching id, a POST appends rows with
  fresh ids.  Every outbound call is recorded in an `ApiCall` trace.
-/

namespace GristApi

/-- Grist cell value, `CellValue = number|string|boolean|null|[string, any]`
from src/lib/grist-api.ts. Numbers are modelled as integers and the compound
two-element form as a tag plus one payload value. -/
inductive CellValue where
  | num : Int → CellValue
  | str : String → CellValue
  | bool : Bool → CellValue
  | null : CellValue
  | compound : String → CellValue → CellValue
deriving DecidableEq, Repr

/-- A record (one row), `IRecord` from the source: a JavaScript object mapping
column ids to cell values.  `(k, none)` models a present key holding
`undefined`. -/
abbrev IRecord := List (String × Option CellValue)

/-- Column-oriented table data, `ITableData` from the source: column id to the
parallel list of values (a list entry `none` models an `undefined` hole). -/
abbrev ITableData := List (String × List (Option CellValue))

/-- Filter specification, `IFilterSpec` from the source: column id to the list
of accepted values. -/
abbrev IFilterSpec := List (String × List CellValue)

/-- Lookup in an insertion-ordered association list (JavaScript objects and
`Map`s cannot hold duplicate keys, so the first match is the only one). -/
def alistGet {α : Type} (m : List (String × α)) (k : String) : Option α :=
  match m with
  | [] => none
  | p :: m => if p.1 = k then some p.2 else alistGet m k

/-- Property lookup giving presence information: `some v` when the key is
present holding `v : Option CellValue`, `none` when the key is missing. -/
def recLookup (r : IRecord) (k : String) : Option (Option CellValue) :=
  alistGet r k

/-- JavaScript property access `r[k]`: missing keys and `undefined`-valued
keys both read as `undefined` (`none`). -/
def jsGet (r : IRecord) (k : String) : Option CellValue :=
  (recLookup r k).join

/-- `Object.keys r` (insertion order). -/
def rkeys (r : IRecord) : List String :=
  r.map Prod.fst

/-- Well-formedness of a record as a JavaScript object: no duplicate keys. -/
def WFRec (r : IRecord) : Prop :=
  (rkeys r).Nodup

instance (r : IRecord) : Decidable (WFRec r) := by
  unfold WFRec; infer_instance

/-- All present values are defined (no `undefined`-valued keys), as guaranteed
by the TypeScript type `IRecord` for caller-supplied records. -/
def definedRec (r : IRecord) : Bool :=
  r.all (fun p => p.2.isSome)

/-- A primitive (non-compound) cell value. -/
def isPrim : CellValue → Bool
  | .compound _ _ => false
  | _ => true

/-- All values of the record are primitive (no compound cells). -/
def primValued (r : IRecord) : Bool :=
  r.all (fun p => match p.2 with
    | some v => isPrim v
    | none => true)

/-- JavaScript strict equality `===` on cell values: structural on primitives,
false whenever a compound (array) value is involved, since distinct array
objects are reference-unequal (see the TODO comments in the source). -/
def jsStrictEq : CellValue → CellValue → Bool
  | .num a, .num b => a == b
  | .str a, .str b => a == b
  | .bool a, .bool b => a == b
  | .null, .null => true
  | _, _ => false

/-- `===` on possibly-`undefined` values. -/
def jsValEq (a b : Option CellValue) : Bool :=
  match a, b with
  | none, none => true
  | some x, some y => jsStrictEq x y
  | _, _ => false

/-- `!==` on possibly-`undefined` values. -/
def jsNe (a b : Option CellValue) : Bool :=
  !jsValEq a b

/-- `Array.includes` (SameValueZero, which coincides with `===` here). -/
def jsIncludes (vs : List CellValue) (x : Option CellValue) : Bool :=
  vs.any (fun v => jsValEq (some v) x)

/-- JavaScript assignment `r[k] = v`: overwrite in place when the key exists,
append otherwise. -/
def rsetV (r : IRecord) (k : String) (v : Option CellValue) : IRecord :=
  if (rkeys r).contains k then
    r.map (fun p => if p.1 == k then (k, v) else p)
  else
    r ++ [(k, v)]

/-- lodash `pick r ks`: the sub-record of `r` at the keys of `ks` that are
present in `r`, in the order of `ks`. -/
def pick (r : IRecord) (ks : List String) : IRecord :=
  ks.filterMap (fun k => (recLookup r k).map (fun v => (k, v)))

/-! ### The JSON printer (`JSON.stringify` on cell values) -/

/-- JSON escaping of one character (quote and backslash). -/
def escChar (c : Char) : List Char :=
  if c = '"' || c = '\\' then ['\\', c] else [c]

/-- JSON escaping of a string body. -/
def escStr (cs : List Char) : List Char :=
  (cs.map escChar).flatten

/-- Decimal digits of `n`, most significant first, with explicit fuel so that
the definition reduces definitionally. -/
def natCharsAux : Nat → Nat → List Char
  | 0, _ => []
  | fuel + 1, n =>
    if n = 0 then [] else natCharsAux fuel (n / 10) ++ [Nat.digitChar (n % 10)]

/-- Decimal representation of a natural number, as `String(n)` produces it. -/
def natChars (n : Nat) : List Char :=
  if n = 0 then ['0'] else natCharsAux (n + 1) n

/-- Decimal representation of an integer. -/
def intChars : Int → List Char
  | .ofNat n => natChars n
  | .negSucc m => '-' :: natChars (m + 1)

/-- `JSON.stringify` of one cell value, as a character list. -/
def jsonChars : CellValue → List Char
  | .num i => intChars i
  | .str s => '"' :: (escStr s.data ++ ['"'])
  | .null => 'n' :: ['u', 'l', 'l']
  | .bool true => 't' :: ['r', 'u', 'e']
  | .bool false => 'f' :: ['a', 'l', 's', 'e']
  | .compound tag payload =>
    '[' :: ('"' :: (escStr tag.data ++ ['"'])) ++ ',' :: jsonChars payload ++ [']']

/-- Comma-separated concatenation. -/
def joinComma : List (List Char) → List Char
  | [] => []
  | [x] => x
  | x :: xs => x ++ ',' :: joinComma xs

/-- `JSON.stringify` of an array of cell values. -/
def jsonValsChars (vs : List CellValue) : List Char :=
  '[' :: (joinComma (vs.map jsonChars) ++ [']'])

/-- `JSON.stringify` prints an `undefined` array entry as `null`. -/
def undefToNull : Option CellValue → CellValue
  | none => .null
  | some v => v

/-- The serialized lookup key of a record over the key columns:
`JSON.stringify(keyColIds.map((colId) => rec[colId]))` (src lines 491, 506). -/
def recKey (keyColIds : List String) (r : IRecord) : String :=
  ⟨jsonValsChars (keyColIds.map (fun c => undefToNull (jsGet r c)))⟩

/-! ### Filters -/

/-- `filterMatches` from the source (line 625): the record matches when every
filter column's list includes the record's value at that column (a compound
value never matches; a missing column never matches). -/
def filterMatches (r : IRecord) (fs : IFilterSpec) : Bool :=
  fs.all (fun p => jsIncludes p.2 (jsGet r p.1))

/-- Server-side filtering of a row on a fetch: value-based membership, with a
missing cell read as `null` (the stored form of an empty cell).  The server is
an out-of-scope collaborator; this models the wire contract of §6. -/
def serverMatches (r : IRecord) (fs : IFilterSpec) : Bool :=
  fs.all (fun p => p.2.contains (undefToNull (jsGet r p.1)))

/-- The rows the server returns for a fetch with the given optional filter. -/
def serverFetch (T : List IRecord) (filters : Option IFilterSpec) : List IRecord :=
  match filters with
  | none => T
  | some fs => T.filter (fun row => serverMatches row fs)

/-! ### The wire codec -/

/-- First-seen union of the keys of all records: the iteration order of
`allKeys` built by `makeTableData` (src lines 613-618). -/
def unionKeys (records : List IRecord) : List String :=
  records.foldl
    (fun acc r =>
      (rkeys r).foldl (fun acc2 k => if acc2.contains k then acc2 else acc2 ++ [k]) acc)
    []

/-- `makeTableData` (src lines 612-620): convert records to column-oriented
table data; records lacking a column produce an `undefined` hole (`none`),
which serializes to `null` on the wire. -/
def makeTableData (records : List IRecord) : ITableData :=
  (unionKeys records).map (fun k => (k, records.map (fun r => jsGet r k)))

/-- The record-decoding half of `fetchTable` (src lines 395-400): requires an
`id` column, then produces one record per `id` index by zipping all column
lists at that index (an out-of-range or `undefined` entry reads back as an
`undefined`-valued key, as `col[index]` does). -/
def toRecords (tableName : String) (data : ITableData) : Except String (List IRecord) :=
  match alistGet data "id" with
  | none =>
    .error ("fetchTable " ++ tableName ++ " returned bad response: id column is not an array")
  | some idCol =>
    .ok ((List.range idCol.length).map (fun i => data.map (fun p => (p.1, p.2.getD i none))))

/-! ### Chunking and grouping for updateRecords -/

/-- Fuelled helper for `chunksOf`; the fuel (at least the list length) makes
the definition reduce definitionally. -/
def chunksOfAux {α : Type} : Nat → Nat → List α → List (List α)
  | 0, _, _ => []
  | _ + 1, _, [] => []
  | fuel + 1, n, x :: xs =>
    if n = 0 then [] else (x :: xs.take (n - 1)) :: chunksOfAux fuel n (xs.drop (n - 1))

/-- lodash `chunk l n`: split into consecutive chunks of `n` (empty output for
chunk size 0, as lodash produces). -/
def chunksOf (n : Nat) (l : List α) : List (List α) :=
  chunksOfAux l.length n l

/-- The id validity check of `updateRecords` (src line 445):
`!rec.id || typeof rec.id !== 'number'` rejects a missing, non-numeric, or
zero (falsy) id. -/
def validId (r : IRecord) : Bool :=
  match jsGet r "id" with
  | some (.num n) => n != 0
  | _ => false

/-- Error message thrown by `updateRecords` on an invalid id. -/
def updErrMsg : String :=
  "updateRecord requires numeric id attribute in each record"

/-- The grouping key of a record in `updateRecords` (src line 448):
`JSON.stringify(Object.keys(rec).sort())`. -/
def groupKeyStr (r : IRecord) : String :=
  ⟨jsonValsChars (((rkeys r).insertionSort (fun a b => a ≤ b)).map CellValue.str)⟩

/-- One step of building the insertion-ordered `Map` of groups (src line 449):
push onto the existing group, or append a new group. -/
def groupUpsert (gs : List (String × List IRecord)) (k : String) (r : IRecord) :
    List (String × List IRecord) :=
  if (gs.map Prod.fst).contains k then
    gs.map (fun p => if p.1 == k then (p.1, p.2 ++ [r]) else p)
  else
    gs ++ [(k, [r])]

/-- The grouping loop of `updateRecords` (src lines 443-451): validate each
record's id and group by sorted key set, failing on the first invalid id. -/
def updateGroups (records : List IRecord) :
    Except String (List (String × List IRecord)) :=
  records.foldlM
    (fun gs rec =>
      if !validId rec then Except.error updErrMsg
      else Except.ok (groupUpsert gs (groupKeyStr rec) rec))
    []

/-- The per-call record batches of `updateRecords` (src lines 453-456): all
chunks of group 1, then all chunks of group 2, and so on. -/
def updateCallData (chunkSize : Nat) (records : List IRecord) :
    Except String (List (List IRecord)) :=
  (updateGroups records).map
    (fun gs => gs.foldl (fun acc p => acc ++ chunksOf chunkSize p.2) [])

/-! ### The operational layer: outbound calls and their server-side effect -/

/-- One outbound REST call. -/
inductive ApiCall where
  | fetch (tableName : String) (filters : Option IFilterSpec)
  | update (tableName : String) (data : ITableData)
  | insert (tableName : String) (data : ITableData)
  | remove (tableName : String) (ids : List Int)
deriving DecidableEq, Repr

/-- Whether a call removes rows. -/
def isRemove : ApiCall → Bool
  | .remove _ _ => true
  | _ => false

/-- Overwrite the columns of `row` with the pairs of `u` (the server-side
effect of one updated record of a PATCH body). -/
def overwrite (row u : IRecord) : IRecord :=
  u.foldl (fun r p => rsetV r p.1 p.2) row

/-- Server-side effect of updating one record: set its columns on the row
whose id matches. -/
def applyUpd1 (T : List IRecord) (u : IRecord) : List IRecord :=
  T.map (fun row => if jsGet row "id" == jsGet u "id" then overwrite row u else row)

/-- Server-side effect of a sequence of updated records. -/
def applySeq (T : List IRecord) (us : List IRecord) : List IRecord :=
  us.foldl applyUpd1 T

/-- The `id` column of each row of a table state, in row order. -/
def idsOf (T : List IRecord) : List (Option CellValue) :=
  T.map (fun row => jsGet row "id")

/-- The effect of one updated record on one row: overwrite its columns when
the ids match, leave it alone otherwise (the row-level view of `applyUpd1`). -/
def updRow (row u : IRecord) : IRecord :=
  if jsGet row "id" == jsGet u "id" then overwrite row u else row

/-- `updateRecords` (src lines 442-465) against a server state: the grouping
and chunking plan determines the PATCH calls; each PATCH sets, for each record
of its (column-homogeneous) batch, that record's columns on the row with that
id.  An invalid id aborts before any call. -/
def updateRecordsRun (chunkSize : Nat) (tableName : String) (T : List IRecord)
    (records : List IRecord) : List ApiCall × Except String (List IRecord) :=
  match updateCallData chunkSize records with
  | .error e => ([], .error e)
  | .ok chunks =>
    (chunks.map (fun recs => ApiCall.update tableName (makeTableData recs)),
     .ok (chunks.foldl applySeq T))

/-- Fresh-id assignment on insert: consecutive ids starting at `nid`. -/
def applyInsFrom (nid : Int) : List IRecord → List IRecord
  | [] => []
  | a :: as => rsetV a "id" (some (.num nid)) :: applyInsFrom (nid + 1) as

/-- The next row id the server assigns: one past the largest numeric id. -/
def nextId (T : List IRecord) : Int :=
  1 + T.foldl
    (fun m row => max m (match jsGet row "id" with | some (.num k) => k | _ => 0))
    0

/-- `addRecords` (src lines 407-419) against a server state: empty input
short-circuits with no call; otherwise one POST per chunk, and the server
appends the new rows with fresh ids. -/
def addRecordsRun (chunkSize : Nat) (tableName : String) (T : List IRecord)
    (records : List IRecord) : List ApiCall × Except String (List IRecord) :=
  if records.isEmpty then ([], .ok T)
  else
    ((chunksOf chunkSize records).map
       (fun recs => ApiCall.insert tableName (makeTableData recs)),
     .ok (T ++ applyInsFrom (nextId T) records))

/-! ### The sync engine -/

/-- `Map.set` of the JavaScript `Map` (overwrite in place or append). -/
def mapSet (m : List (String × IRecord)) (k : String) (v : IRecord) :
    List (String × IRecord) :=
  if (m.map Prod.fst).contains k then
    m.map (fun p => if p.1 == k then (k, v) else p)
  else
    m ++ [(k, v)]

/-- `Map.get`. -/
def mapGet (m : List (String × IRecord)) (k : String) : Option IRecord :=
  alistGet m k

/-- The `gristRows` lookup of `syncTable` (src lines 489-493): serialized key
tuple to fetched row, later rows overwriting earlier ones. -/
def buildLookup (keyColIds : List String) (rows : List IRecord) :
    List (String × IRecord) :=
  rows.foldl (fun m row => mapSet m (recKey keyColIds row) row) []

/-- The changed-column set of `syncTable` (src line 511):
`Object.keys(newRec).filter((colId) => newRec[colId] !== oldRec[colId])`. -/
def changedKeysOf (newRec oldRec : IRecord) : List String :=
  (rkeys newRec).filter (fun c => jsNe (jsGet newRec c) (jsGet oldRec c))

/-- The staged update of `syncTable` (src lines 515-516):
`pick(newRec, changedKeys)` with `id` then set to the matched row's id. -/
def mkUpdate (newRec oldRec : IRecord) : IRecord :=
  rsetV (pick newRec (changedKeysOf newRec oldRec)) "id" (jsGet oldRec "id")

/-- The filter guard of `syncTable`'s loop (src line 501):
`if (filters && !filterMatches(rec, filters)) continue`. -/
def filteredOut (filters : Option IFilterSpec) (newRec : IRecord) : Bool :=
  match filters with
  | some fs => !filterMatches newRec fs
  | none => false

/-- Processing of one input record by `syncTable`'s loop (src lines 499-523):
skip it when filters exclude it; otherwise stage an update when it matches an
existing row and some column changed, stage an insert when it matches no row,
and stage nothing when it matches with no changes. -/
def syncStep (lookup : List (String × IRecord)) (keyColIds : List String)
    (filters : Option IFilterSpec) (acc : List IRecord × List IRecord)
    (newRec : IRecord) : List IRecord × List IRecord :=
  if filteredOut filters newRec then
    acc
  else
    match mapGet lookup (recKey keyColIds newRec) with
    | some oldRec =>
      if (changedKeysOf newRec oldRec).isEmpty then acc
      else (acc.1 ++ [mkUpdate newRec oldRec], acc.2)
    | none => (acc.1, acc.2 ++ [newRec])

/-- The update and insert lists staged by `syncTable`'s loop. -/
def syncPlan (lookup : List (String × IRecord)) (keyColIds : List String)
    (filters : Option IFilterSpec) (records : List IRecord) :
    List IRecord × List IRecord :=
  records.foldl (syncStep lookup keyColIds filters) ([], [])

/-- The update (if any) that `syncTable`'s loop stages for one input record;
`syncPlan`'s update list is the `filterMap` of this over the input. -/
def updComp (lookup : List (String × IRecord)) (keyColIds : List String)
    (filters : Option IFilterSpec) (newRec : IRecord) : Option IRecord :=
  if filteredOut filters newRec then none
  else
    match mapGet lookup (recKey keyColIds newRec) with
    | some oldRec =>
      if (changedKeysOf newRec oldRec).isEmpty then none
      else some (mkUpdate newRec oldRec)
    | none => none

/-- The insert (if any) that `syncTable`'s loop stages for one input record. -/
def insComp (lookup : List (String × IRecord)) (keyColIds : List String)
    (filters : Option IFilterSpec) (newRec : IRecord) : Option IRecord :=
  if filteredOut filters newRec then none
  else
    match mapGet lookup (recKey keyColIds newRec) with
    | some _ => none
    | none => some newRec

/-- The filter-subset precondition of `syncTable` (src line 484): every filter
column must be among the key columns. -/
def syncPrecondOk (keyColIds : List String) (filters : Option IFilterSpec) : Bool :=
  match filters with
  | none => true
  | some fs => (fs.map Prod.fst).all (fun c => keyColIds.contains c)

/-- Error message thrown by `syncTable` on a filter column outside the key
columns. -/
def syncErrMsg : String :=
  "syncTable requires key columns to include all filter columns"

/-- The operations `syncTable` stages against a given server state: the diff
of the input records against the lookup built from the filtered fetch. -/
def syncStagedOps (T : List IRecord) (records : List IRecord)
    (keyColIds : List String) (filters : Option IFilterSpec) :
    List IRecord × List IRecord :=
  syncPlan (buildLookup keyColIds (serverFetch T filters)) keyColIds filters records

/-- `syncTable` (src lines 479-531) against a server state: check the filter
precondition (before any call), fetch the filtered rows, diff, then apply all
staged updates and then all staged inserts, recording every outbound call. -/
def syncTableRun (chunkSize : Nat) (tableName : String) (T : List IRecord)
    (records : List IRecord) (keyColIds : List String)
    (filters : Option IFilterSpec) : List ApiCall × Except String (List IRecord) :=
  if !syncPrecondOk keyColIds filters then ([], .error syncErrMsg)
  else
    match updateRecordsRun chunkSize tableName T
        (syncStagedOps T records keyColIds filters).1 with
    | (ucalls, .error e) => (ApiCall.fetch tableName filters :: ucalls, .error e)
    | (ucalls, .ok T1) =>
      (ApiCall.fetch tableName filters ::
        (ucalls ++ (addRecordsRun chunkSize tableName T1
            (syncStagedOps T records keyColIds filters).2).1),
       (addRecordsRun chunkSize tableName T1
           (syncStagedOps T records keyColIds filters).2).2)

/-! ### A parser for the printed JSON, used to prove the serialization injective -/

/-- Parse a leading run of decimal digits. -/
def parseNat (cs : List Char) : Option (Nat × List Char) :=
  let ds := cs.takeWhile Char.isDigit
  if ds.isEmpty then none
  else some (ds.foldl (fun a c => 10 * a + (c.toNat - 48)) 0, cs.dropWhile Char.isDigit)

/-- Parse a string body up to the closing quote, undoing `escChar`. -/
def parseStrBody : List Char → Option (List Char × List Char)
  | [] => none
  | c :: rest =>
    if c = '\\' then
      match rest with
      | [] => none
      | d :: rest2 => (parseStrBody rest2).map (fun p => (d :: p.1, p.2))
    else if c = '"' then some ([], rest)
    else (parseStrBody rest).map (fun p => (c :: p.1, p.2))

/-- Expect the tail of a printed `null`. -/
def parseNullTail : List Char → Option (CellValue × List Char)
  | 'u' :: 'l' :: 'l' :: r => some (.null, r)
  | _ => none

/-- Expect the tail of a printed `true`. -/
def parseTrueTail : List Char → Option (CellValue × List Char)
  | 'r' :: 'u' :: 'e' :: r => some (.bool true, r)
  | _ => none

/-- Expect the tail of a printed `false`. -/
def parseFalseTail : List Char → Option (CellValue × List Char)
  | 'a' :: 'l' :: 's' :: 'e' :: r => some (.bool false, r)
  | _ => none

/-- Expect the closing bracket of a printed compound value. -/
def parseCompound3 (tag : String) :
    Option (CellValue × List Char) → Option (CellValue × List Char)
  | some (payload, ']' :: cs4) => some (.compound tag payload, cs4)
  | _ => none

/-- Expect the comma and the payload of a printed compound value. -/
def parseCompound2 (pc : List Char → Option (CellValue × List Char)) :
    Option (List Char × List Char) → Option (CellValue × List Char)
  | some (tag, ',' :: cs3) => parseCompound3 ⟨tag⟩ (pc cs3)
  | _ => none

/-- Expect the body of a printed compound value after its opening bracket. -/
def parseCompound (pc : List Char → Option (CellValue × List Char)) :
    List Char → Option (CellValue × List Char)
  | '"' :: cs2 => parseCompound2 pc (parseStrBody cs2)
  | _ => none

/-- Parse one printed cell value (fuel bounds the compound nesting). -/
def parseCell : Nat → List Char → Option (CellValue × List Char)
  | 0, _ => none
  | _ + 1, [] => none
  | fuel + 1, c :: cs =>
    if c = 'n' then parseNullTail cs
    else if c = 't' then parseTrueTail cs
    else if c = 'f' then parseFalseTail cs
    else if c = '-' then (parseNat cs).map (fun p => (.num (-(p.1 : Int)), p.2))
    else if c.isDigit then (parseNat (c :: cs)).map (fun p => (.num (p.1 : Int), p.2))
    else if c = '"' then (parseStrBody cs).map (fun p => (.str ⟨p.1⟩, p.2))
    else if c = '[' then parseCompound (parseCell fuel) cs
    else none

/-- Dispatch on the separator after one parsed array element. -/
def parseCellsTail (rec : List Char → Option (List CellValue × List Char)) :
    Option (CellValue × List Char) → Option (List CellValue × List Char)
  | some (v, ',' :: r) => (rec r).map (fun p => (v :: p.1, p.2))
  | some (v, ']' :: r) => some ([v], r)
  | _ => none

/-- Parse the comma-separated elements of a printed array, including the
closing bracket. -/
def parseCells : Nat → List Char → Option (List CellValue × List Char)
  | 0, _ => none
  | fuel + 1, cs =>
    match cs with
    | ']' :: r => some ([], r)
    | _ => parseCellsTail (parseCells fuel) (parseCell (fuel + 1) cs)

/-- Nesting depth of a cell value, a fuel bound for `parseCell`. -/
def cellDepth : CellValue → Nat
  | .compound _ p => cellDepth p + 1
  | _ => 1

/-- Fuel bound for `parseCells`. -/
def listFuel (vs : List CellValue) : Nat :=
  vs.foldr (fun v a => cellDepth v + a) 1

/-- The remainder does not begin with a digit (so a digit run cannot leak into
it). -/
def notDigitStart : List Char → Bool
  | [] => true
  | c :: _ => !c.isDigit

/-- Fuelled helper for `firstSeenKeys`. -/
def firstSeenKeysAux : Nat → List String → List String
  | 0, _ => []
  | _ + 1, [] => []
  | fuel + 1, k :: ks => k :: firstSeenKeysAux fuel (ks.filter (fun x => x != k))

/-- First occurrence of each distinct key, in encounter order.  This is the
reference shape used by the claims about first-seen grouping and key unions. -/
def firstSeenKeys (l : List String) : List String :=
  firstSeenKeysAux l.length l

/-- The per-call batches that claim C4 asserts `updateRecords` issues: one
group per distinct sorted column set in encounter order, each group holding
exactly its records in input order, subdivided into chunks. -/
def updateGroupsSpec (chunkSize : Nat) (records : List IRecord) : List (List IRecord) :=
  (firstSeenKeys (records.map groupKeyStr)).flatMap
    (fun k => chunksOf chunkSize (records.filter (fun r => groupKeyStr r == k)))

/-- Equality of two records as plain JavaScript objects: the same keys are
present (in any order) and hold the same possibly-`undefined` values. -/
def objEqB (r1 r2 : IRecord) : Bool :=
  (rkeys r1 ++ rkeys r2).all (fun k => alistGet r1 k == alistGet r2 k)

/-- Pointwise object equality of two record lists. -/
def recListObjEq (l1 l2 : List IRecord) : Bool :=
  l1.length == l2.length && (l1.zip l2).all (fun p => objEqB p.1 p.2)

theorem cellDepth_pos (v : CellValue) : 1 ≤ cellDepth v := by
  cases v <;> simp [cellDepth]

theorem digitChar_isDigit {d : Nat} (h : d < 10) :
    (Nat.digitChar d).isDigit = true := by
  interval_cases d <;> rfl

theorem digitChar_toNat {d : Nat} (h : d < 10) :
    (Nat.digitChar d).toNat = 48 + d := by
  interval_cases d <;> rfl

theorem natCharsAux_digits :
    ∀ (fuel n : Nat), n < fuel → ∀ c ∈ natCharsAux fuel n, c.isDigit = true := by
  intro fuel
  induction fuel with
  | zero => intro n h; omega
  | succ f ih =>
    intro n h c hc
    by_cases h0 : n = 0
    · simp [natCharsAux, h0] at hc
    · simp only [natCharsAux, if_neg h0, List.mem_append, List.mem_singleton] at hc
      rcases hc with hc | hc
      · have hlt : n / 10 < f := by
          have := Nat.div_lt_self (Nat.pos_of_ne_zero h0) (by omega : 1 < 10)
          omega
        exact ih (n / 10) hlt c hc
      · subst hc; exact digitChar_isDigit (Nat.mod_lt _ (by omega))

theorem natVal_natCharsAux :
    ∀ (fuel n : Nat), n < fuel →
      (natCharsAux fuel n).foldl (fun a c => 10 * a + (c.toNat - 48)) 0 = n := by
  intro fuel
  induction fuel with
  | zero => intro n h; omega
  | succ f ih =>
    intro n h
    by_cases h0 : n = 0
    · simp [natCharsAux, h0]
    · have hdiv : n / 10 < f := by
        have h1 : n / 10 < n := Nat.div_lt_self (by omega) (by omega)
        omega
      simp only [natCharsAux, if_neg h0, List.foldl_append, ih (n / 10) hdiv,
        List.foldl_cons, List.foldl_nil]
      rw [digitChar_toNat (Nat.mod_lt _ (by omega))]
      omega

theorem natChars_digits {n : Nat} : ∀ c ∈ natChars n, c.isDigit = true := by
  intro c hc
  by_cases h0 : n = 0
  · simp [natChars, h0] at hc; subst hc; rfl
  · simp only [natChars, if_neg h0] at hc
    exact natCharsAux_digits (n + 1) n (by omega) c hc

theorem natChars_ne_nil {n : Nat} : natChars n ≠ [] := by
  by_cases h0 : n = 0
  · simp [natChars, h0]
  · simp only [natChars, if_neg h0]
    cases hn : natCharsAux (n + 1) n with
    | nil =>
      have := natVal_natCharsAux (n + 1) n (by omega)
      rw [hn] at this
      simp at this
      omega
    | cons a l => simp

theorem natVal_natChars {n : Nat} :
    (natChars n).foldl (fun a c => 10 * a + (c.toNat - 48)) 0 = n := by
  by_cases h0 : n = 0
  · subst h0; rfl
  · simp only [natChars, if_neg h0]
    exact natVal_natCharsAux (n + 1) n (by omega)

theorem takeWhile_append_all {p : Char → Bool} {l r : List Char}
    (h : ∀ c ∈ l, p c = true) : (l ++ r).takeWhile p = l ++ r.takeWhile p := by
  induction l with
  | nil => simp
  | cons a l ih =>
    have h1 : p a = true := h a (List.mem_cons_self a l)
    have h2 := ih (fun c hc => h c (List.mem_cons_of_mem a hc))
    simp [List.takeWhile_cons, h1, h2]

theorem dropWhile_append_all {p : Char → Bool} {l r : List Char}
    (h : ∀ c ∈ l, p c = true) : (l ++ r).dropWhile p = r.dropWhile p := by
  induction l with
  | nil => simp
  | cons a l ih =>
    have h1 : p a = true := h a (List.mem_cons_self a l)
    have h2 := ih (fun c hc => h c (List.mem_cons_of_mem a hc))
    simp [List.dropWhile_cons, h1, h2]

theorem dropWhile_of_notDigitStart {r : List Char} (h : notDigitStart r = true) :
    r.dropWhile Char.isDigit = r := by
  cases r with
  | nil => rfl
  | cons a l =>
    simp only [notDigitStart, Bool.not_eq_true'] at h
    simp [List.dropWhile_cons, h]

theorem takeWhile_of_notDigitStart {r : List Char} (h : notDigitStart r = true) :
    r.takeWhile Char.isDigit = [] := by
  cases r with
  | nil => rfl
  | cons a l =>
    simp only [notDigitStart, Bool.not_eq_true'] at h
    simp [List.takeWhile_cons, h]

theorem parseNat_natChars {n : Nat} {rest : List Char}
    (h : notDigitStart rest = true) :
    parseNat (natChars n ++ rest) = some (n, rest) := by
  unfold parseNat
  rw [takeWhile_append_all (fun c hc => natChars_digits c hc),
    takeWhile_of_notDigitStart h,
    dropWhile_append_all (fun c hc => natChars_digits c hc),
    dropWhile_of_notDigitStart h]
  simp only [List.append_nil]
  rw [if_neg (by simp [List.isEmpty_iff, natChars_ne_nil])]
  rw [natVal_natChars]

theorem parseStrBody_backslash (c : Char) (xs : List Char) :
    parseStrBody ('\\' :: c :: xs) =
      (parseStrBody xs).map (fun p => (c :: p.1, p.2)) := by
  rw [parseStrBody]; simp

theorem parseStrBody_quote (xs : List Char) :
    parseStrBody ('"' :: xs) = some ([], xs) := by
  simp [parseStrBody.eq_def]

theorem parseStrBody_other {c : Char} (h1 : c ≠ '\\') (h2 : c ≠ '"')
    (xs : List Char) :
    parseStrBody (c :: xs) = (parseStrBody xs).map (fun p => (c :: p.1, p.2)) := by
  conv_lhs => rw [parseStrBody.eq_def]
  simp [h1, h2]

theorem parseStrBody_escStr (s : List Char) :
    ∀ rest : List Char, parseStrBody (escStr s ++ '"' :: rest) = some (s, rest) := by
  induction s with
  | nil =>
    intro rest
    have h0 : escStr [] = [] := rfl
    rw [h0, List.nil_append, parseStrBody_quote]
  | cons c tl ih =>
    intro rest
    have hesc : escStr (c :: tl) = escChar c ++ escStr tl := by
      simp [escStr]
    rw [hesc]
    unfold escChar
    by_cases hc : c = '"' ∨ c = '\\'
    · rw [if_pos (by simpa using hc)]
      have hsplit :
          (['\\', c] ++ escStr tl) ++ '"' :: rest =
            '\\' :: c :: (escStr tl ++ '"' :: rest) := by
        simp
      rw [hsplit, parseStrBody_backslash, ih rest]
      rfl
    · rw [if_neg (by simpa using hc)]
      push_neg at hc
      have hsplit :
          ([c] ++ escStr tl) ++ '"' :: rest = c :: (escStr tl ++ '"' :: rest) := by
        simp
      rw [hsplit, parseStrBody_other hc.2 hc.1, ih rest]
      rfl

theorem isDigit_notSpecial {c : Char} (h : c.isDigit = true) :
    c ≠ 'n' ∧ c ≠ 't' ∧ c ≠ 'f' ∧ c ≠ '-' ∧ c ≠ '"' ∧ c ≠ '[' ∧ c ≠ ']' ∧ c ≠ ',' := by
  refine ⟨?_, ?_, ?_, ?_, ?_, ?_, ?_, ?_⟩ <;>
    (rintro rfl; exact absurd h (by decide))

theorem parseCell_cons (f : Nat) (c : Char) (cs : List Char) :
    parseCell (f + 1) (c :: cs) =
      (if c = 'n' then parseNullTail cs
       else if c = 't' then parseTrueTail cs
       else if c = 'f' then parseFalseTail cs
       else if c = '-' then (parseNat cs).map (fun p => (.num (-(p.1 : Int)), p.2))
       else if c.isDigit then (parseNat (c :: cs)).map (fun p => (.num (p.1 : Int), p.2))
       else if c = '"' then (parseStrBody cs).map (fun p => (.str ⟨p.1⟩, p.2))
       else if c = '[' then parseCompound (parseCell f) cs
       else none) := by
  conv_lhs => rw [parseCell.eq_def]

theorem parseCell_jsonChars :
    ∀ (v : CellValue) (f : Nat) (rest : List Char), cellDepth v ≤ f + 1 →
      notDigitStart rest = true →
      parseCell (f + 1) (jsonChars v ++ rest) = some (v, rest) := by
  intro v
  induction v with
  | null =>
    intro f rest _ _
    have h0 : jsonChars .null ++ rest = 'n' :: ('u' :: 'l' :: 'l' :: rest) := rfl
    rw [h0, parseCell_cons]
    simp [parseNullTail]
  | bool b =>
    intro f rest _ _
    cases b
    · have h0 : jsonChars (.bool false) ++ rest =
          'f' :: ('a' :: 'l' :: 's' :: 'e' :: rest) := rfl
      rw [h0, parseCell_cons]
      simp [parseFalseTail]
    · have h0 : jsonChars (.bool true) ++ rest =
          't' :: ('r' :: 'u' :: 'e' :: rest) := rfl
      rw [h0, parseCell_cons]
      simp [parseTrueTail]
  | num i =>
    intro f rest _ hrest
    rcases i with n | m
    · have h0 : jsonChars (.num (Int.ofNat n)) = natChars n := rfl
      obtain ⟨d, ds, hd⟩ := List.exists_cons_of_ne_nil (natChars_ne_nil (n := n))
      have hdig : d.isDigit = true := natChars_digits d (by rw [hd]; simp)
      obtain ⟨h1, h2, h3, h4, -⟩ := isDigit_notSpecial hdig
      rw [h0, hd, List.cons_append, parseCell_cons,
        if_neg h1, if_neg h2, if_neg h3, if_neg h4, if_pos hdig,
        show d :: (ds ++ rest) = natChars n ++ rest by rw [hd]; simp,
        parseNat_natChars hrest]
      rfl
    · have h0 : jsonChars (.num (Int.negSucc m)) ++ rest =
          '-' :: (natChars (m + 1) ++ rest) := by
        simp [jsonChars, intChars]
      rw [h0, parseCell_cons]
      rw [if_neg (by decide), if_neg (by decide), if_neg (by decide), if_pos rfl,
        parseNat_natChars hrest]
      rfl
  | str s =>
    intro f rest _ _
    obtain ⟨sd⟩ := s
    have h0 : jsonChars (.str ⟨sd⟩) ++ rest = '"' :: (escStr sd ++ '"' :: rest) := by
      simp [jsonChars]
    rw [h0, parseCell_cons]
    rw [if_neg (by decide), if_neg (by decide), if_neg (by decide),
      if_neg (by decide), if_neg (by decide), if_pos rfl,
      parseStrBody_escStr]
    rfl
  | compound tag payload ih =>
    intro f rest hdepth hrest
    obtain ⟨td⟩ := tag
    have h0 : jsonChars (.compound ⟨td⟩ payload) ++ rest =
        '[' :: ('"' :: (escStr td ++ '"' :: (',' :: (jsonChars payload ++ ']' :: rest)))) := by
      simp [jsonChars]
    rw [h0, parseCell_cons]
    rw [if_neg (by decide), if_neg (by decide), if_neg (by decide),
      if_neg (by decide), if_neg (by decide), if_neg (by decide), if_pos rfl]
    rw [parseCompound, parseStrBody_escStr, parseCompound2]
    have hf : cellDepth payload ≤ f := by
      have := cellDepth_pos payload
      simp only [cellDepth] at hdepth
      omega
    obtain ⟨f', rfl⟩ : ∃ f', f = f' + 1 := by
      have := cellDepth_pos payload
      exact ⟨f - 1, by omega⟩
    rw [ih f' (']' :: rest) hf rfl]
    rfl

theorem jsonChars_head (v : CellValue) :
    ∃ c cs', jsonChars v = c :: cs' ∧ c ≠ ']' ∧ c ≠ ',' := by
  cases v with
  | null => exact ⟨'n', _, rfl, by decide, by decide⟩
  | bool b =>
    cases b
    · exact ⟨'f', _, rfl, by decide, by decide⟩
    · exact ⟨'t', _, rfl, by decide, by decide⟩
  | num i =>
    rcases i with n | m
    · obtain ⟨d, ds, hd⟩ := List.exists_cons_of_ne_nil (natChars_ne_nil (n := n))
      have hdig : d.isDigit = true := natChars_digits d (by rw [hd]; simp)
      obtain ⟨-, -, -, -, -, -, h7, h8⟩ := isDigit_notSpecial hdig
      exact ⟨d, ds, by rw [show jsonChars (.num (Int.ofNat n)) = natChars n from rfl]; exact hd,
        h7, h8⟩
    · exact ⟨'-', _, rfl, by decide, by decide⟩
  | str s => exact ⟨'"', _, rfl, by decide, by decide⟩
  | compound tag payload =>
    refine ⟨'[', ('"' :: (escStr tag.data ++ ['"'])) ++ ',' :: jsonChars payload ++ [']'],
      ?_, by decide, by decide⟩
    simp [jsonChars]

theorem listFuel_cons (v : CellValue) (l : List CellValue) :
    listFuel (v :: l) = cellDepth v + listFuel l := by
  simp [listFuel]

theorem listFuel_pos (l : List CellValue) : 1 ≤ listFuel l := by
  cases l with
  | nil => simp [listFuel]
  | cons v l =>
    rw [listFuel_cons]
    have := cellDepth_pos v
    omega

theorem parseCells_rbrack (f : Nat) (r : List Char) :
    parseCells (f + 1) (']' :: r) = some ([], r) := by
  rw [parseCells]

theorem parseCells_cons (f : Nat) {c : Char} (cs : List Char) (h : c ≠ ']') :
    parseCells (f + 1) (c :: cs) =
      parseCellsTail (parseCells f) (parseCell (f + 1) (c :: cs)) := by
  rw [parseCells]
  intro r heq
  exact h (List.cons_eq_cons.mp heq).1

theorem parseCells_joinComma :
    ∀ (vs : List CellValue) (f : Nat) (rest : List Char), listFuel vs ≤ f + 1 →
      parseCells (f + 1) (joinComma (vs.map jsonChars) ++ ']' :: rest) = some (vs, rest) := by
  intro vs
  induction vs with
  | nil =>
    intro f rest _
    rw [show joinComma (List.map jsonChars []) ++ ']' :: rest = ']' :: rest by simp [joinComma],
      parseCells_rbrack]
  | cons v vs' ih =>
    intro f rest hfuel
    rw [listFuel_cons] at hfuel
    have hd1 := cellDepth_pos v
    have hl1 := listFuel_pos vs'
    obtain ⟨c, cs', hc, hcr, hcc⟩ := jsonChars_head v
    cases vs' with
    | nil =>
      have h0 : joinComma (List.map jsonChars [v]) ++ ']' :: rest =
          c :: (cs' ++ ']' :: rest) := by
        simp [joinComma, hc]
      rw [h0, parseCells_cons f _ hcr,
        show c :: (cs' ++ ']' :: rest) = jsonChars v ++ ']' :: rest by simp [hc],
        parseCell_jsonChars v f (']' :: rest) (by simp [listFuel] at hfuel; omega) rfl]
      rfl
    | cons w ws =>
      have h0 : joinComma (List.map jsonChars (v :: w :: ws)) ++ ']' :: rest =
          c :: (cs' ++ ',' :: (joinComma (List.map jsonChars (w :: ws)) ++ ']' :: rest)) := by
        simp [joinComma, hc]
      obtain ⟨f', rfl⟩ : ∃ f', f = f' + 1 := ⟨f - 1, by omega⟩
      rw [h0, parseCells_cons (f' + 1) _ hcr,
        show c :: (cs' ++ ',' :: (joinComma (List.map jsonChars (w :: ws)) ++ ']' :: rest)) =
          jsonChars v ++ ',' :: (joinComma (List.map jsonChars (w :: ws)) ++ ']' :: rest) by
            simp [hc],
        parseCell_jsonChars v (f' + 1)
          (',' :: (joinComma (List.map jsonChars (w :: ws)) ++ ']' :: rest)) (by omega) rfl]
      rw [parseCellsTail, ih f' rest (by omega)]
      rfl

theorem jsonChars_inj {v w : CellValue} (h : jsonChars v = jsonChars w) : v = w := by
  set f := max (cellDepth v) (cellDepth w) with hf
  have hv := parseCell_jsonChars v f [] (by omega) rfl
  have hw := parseCell_jsonChars w f [] (by omega) rfl
  rw [h, hw] at hv
  simpa using hv.symm

theorem jsonValsChars_inj {vs ws : List CellValue}
    (h : jsonValsChars vs = jsonValsChars ws) : vs = ws := by
  have h2 : joinComma (vs.map jsonChars) ++ ']' :: [] =
      joinComma (ws.map jsonChars) ++ ']' :: [] := by
    have h3 := h
    unfold jsonValsChars at h3
    rw [List.cons_eq_cons] at h3
    simpa using h3.2
  set f := max (listFuel vs) (listFuel ws) with hf
  have h4 : listFuel vs ≤ f := by omega
  have h5 : listFuel ws ≤ f := by omega
  have hv := parseCells_joinComma vs f [] (by omega)
  have hw := parseCells_joinComma ws f [] (by omega)
  rw [h2, hw] at hv
  simpa using hv.symm

theorem stringMk_inj {a b : List Char} (h : (⟨a⟩ : String) = ⟨b⟩) : a = b :=
  congrArg String.data h

/-- `JSON.stringify` of the projected key tuple is injective up to reading a
missing (`undefined`) key column as `null`. -/
theorem recKey_eq_iff (keyColIds : List String) (r1 r2 : IRecord) :
    recKey keyColIds r1 = recKey keyColIds r2 ↔
      keyColIds.map (fun c => undefToNull (jsGet r1 c)) =
        keyColIds.map (fun c => undefToNull (jsGet r2 c)) := by
  constructor
  · intro h
    unfold recKey at h
    exact jsonValsChars_inj (stringMk_inj h)
  · intro h
    unfold recKey
    rw [h]

/-- The grouping key of `updateRecords` is injective in the sorted key list. -/
theorem groupKeyStr_eq_iff (r1 r2 : IRecord) :
    groupKeyStr r1 = groupKeyStr r2 ↔
      (rkeys r1).insertionSort (fun a b => a ≤ b) =
        (rkeys r2).insertionSort (fun a b => a ≤ b) := by
  constructor
  · intro h
    unfold groupKeyStr at h
    have h2 := jsonValsChars_inj (stringMk_inj h)
    have h3 : Function.Injective CellValue.str := by
      intro a b hab
      injection hab
    exact (List.map_injective_iff.mpr h3) h2
  · intro h
    unfold groupKeyStr
    rw [h]

/-! ### Basic lemmas about record operations -/

theorem alistGet_cons_eq {α : Type} {p : String × α} {m : List (String × α)}
    {k : String} (h : p.1 = k) : alistGet (p :: m) k = some p.2 := by
  simp [alistGet, h]

theorem alistGet_cons_ne {α : Type} {p : String × α} {m : List (String × α)}
    {k : String} (h : ¬ p.1 = k) : alistGet (p :: m) k = alistGet m k := by
  simp [alistGet, h]

theorem alistGet_eq_none {α : Type} {m : List (String × α)} {k : String}
    (h : ¬ k ∈ m.map Prod.fst) : alistGet m k = none := by
  induction m with
  | nil => rfl
  | cons p m ih =>
    simp only [List.map_cons, List.mem_cons, not_or] at h
    rw [alistGet_cons_ne (fun he => h.1 he.symm)]
    exact ih h.2

theorem alistGet_isSome_of_mem {α : Type} {m : List (String × α)} {k : String}
    (h : k ∈ m.map Prod.fst) : (alistGet m k).isSome = true := by
  induction m with
  | nil => simp at h
  | cons p m ih =>
    by_cases hpk : p.1 = k
    · simp [alistGet, hpk]
    · simp only [List.map_cons, List.mem_cons] at h
      simp only [alistGet, if_neg hpk]
      exact ih (h.resolve_left (fun he => hpk he.symm))

theorem mem_of_alistGet_eq_some {α : Type} {m : List (String × α)} {k : String}
    {v : α} (h : alistGet m k = some v) : k ∈ m.map Prod.fst := by
  by_contra hmem
  rw [alistGet_eq_none hmem] at h
  exact Option.noConfusion h

theorem alistGet_map_set {α : Type} (m : List (String × α)) (k k' : String) (v : α) :
    alistGet (m.map (fun p => if p.1 == k then (k, v) else p)) k' =
      if k' = k ∧ k ∈ m.map Prod.fst then some v else alistGet m k' := by
  induction m with
  | nil => simp [alistGet]
  | cons p m ih =>
    rw [List.map_cons]
    by_cases hpk : p.1 = k
    · rw [if_pos (by simpa using hpk)]
      by_cases hk' : k' = k
      · subst hk'
        rw [alistGet_cons_eq rfl,
          if_pos ⟨rfl, by rw [List.map_cons, hpk]; exact List.mem_cons_self _ _⟩]
      · have hne1 : ¬ (k, v).1 = k' := fun he => hk' he.symm
        have hne2 : ¬ p.1 = k' := fun he => hk' ((hpk.symm.trans he).symm)
        rw [alistGet_cons_ne hne1, ih, if_neg (fun hand => hk' hand.1),
          if_neg (fun hand => hk' hand.1), alistGet_cons_ne hne2]
    · rw [if_neg (by simpa using hpk)]
      by_cases hpk' : p.1 = k'
      · have hk' : ¬ k' = k := fun he => hpk (he ▸ hpk')
        rw [if_neg (fun hand => hk' hand.1), alistGet_cons_eq hpk', alistGet_cons_eq hpk']
      · rw [alistGet_cons_ne hpk', ih, alistGet_cons_ne hpk']
        by_cases hcond : k' = k ∧ k ∈ List.map Prod.fst m
        · rw [if_pos hcond, if_pos ⟨hcond.1, by rw [List.map_cons]; exact List.mem_cons_of_mem _ hcond.2⟩]
        · rw [if_neg hcond, if_neg (fun hand => hcond ⟨hand.1, by
            have h2 := hand.2
            rw [List.map_cons, List.mem_cons] at h2
            exact h2.resolve_left (fun he => hpk he.symm)⟩)]

theorem alistGet_append {α : Type} (m1 m2 : List (String × α)) (k : String) :
    alistGet (m1 ++ m2) k =
      match alistGet m1 k with
      | some v => some v
      | none => alistGet m2 k := by
  induction m1 with
  | nil => simp [alistGet]
  | cons p m ih =>
    by_cases hpk : p.1 = k
    · simp [alistGet, hpk]
    · simpa [alistGet, hpk] using ih

theorem recLookup_rsetV (r : IRecord) (k k' : String) (v : Option CellValue) :
    recLookup (rsetV r k v) k' = if k' = k then some v else recLookup r k' := by
  unfold rsetV recLookup
  by_cases hk : (rkeys r).contains k
  · rw [if_pos hk, alistGet_map_set]
    have hmem : k ∈ List.map Prod.fst r := by simpa [rkeys] using hk
    by_cases hk' : k' = k
    · rw [if_pos ⟨hk', hmem⟩, if_pos hk']
    · rw [if_neg (fun hand => hk' hand.1), if_neg hk']
  · rw [if_neg hk, alistGet_append]
    have hmem : ¬ k ∈ List.map Prod.fst r := by simpa [rkeys] using hk
    by_cases hk' : k' = k
    · subst hk'
      rw [alistGet_eq_none hmem]
      simp [alistGet, if_pos rfl]
    · rw [if_neg hk']
      cases hr : alistGet r k' with
      | none =>
        show alistGet [(k, v)] k' = none
        have hne : ¬ (k, v).1 = k' := fun he => hk' he.symm
        rw [alistGet_cons_ne hne]
        rfl
      | some w => rfl

theorem jsGet_rsetV (r : IRecord) (k k' : String) (v : Option CellValue) :
    jsGet (rsetV r k v) k' = if k' = k then v else jsGet r k' := by
  unfold jsGet
  rw [recLookup_rsetV]
  by_cases hk' : k' = k
  · simp [hk']
  · simp [hk']

theorem rkeys_map_set (r : IRecord) (k : String) (v : Option CellValue) :
    rkeys (r.map (fun p => if p.1 == k then (k, v) else p)) = rkeys r := by
  unfold rkeys
  rw [List.map_map]
  apply List.map_congr_left
  intro p _
  by_cases hpk : p.1 = k
  · simp [hpk]
  · simp [hpk]

theorem rkeys_rsetV (r : IRecord) (k : String) (v : Option CellValue) :
    rkeys (rsetV r k v) = if k ∈ rkeys r then rkeys r else rkeys r ++ [k] := by
  unfold rsetV
  by_cases hk : (rkeys r).contains k
  · rw [if_pos hk, rkeys_map_set, if_pos (by simpa using hk)]
  · rw [if_neg hk, if_neg (by simpa using hk)]
    simp [rkeys]

theorem recLookup_pick (r : IRecord) (ks : List String) (k' : String) :
    recLookup (pick r ks) k' = if k' ∈ ks then recLookup r k' else none := by
  induction ks with
  | nil => simp [pick, recLookup, alistGet]
  | cons a ks ih =>
    cases ha : recLookup r a with
    | none =>
      have hp : pick r (a :: ks) = pick r ks := by
        unfold pick
        rw [List.filterMap_cons]
        simp [ha]
      rw [hp, ih]
      by_cases hk' : k' = a
      · subst hk'
        by_cases hmem : k' ∈ ks
        · simp [hmem]
        · simp [hmem, ha]
      · simp [hk']
    | some v =>
      have hp : pick r (a :: ks) = (a, v) :: pick r ks := by
        unfold pick
        rw [List.filterMap_cons]
        simp [ha]
      rw [hp]
      by_cases hk' : k' = a
      · subst hk'
        rw [show recLookup ((k', v) :: pick r ks) k' = some v from alistGet_cons_eq rfl,
          if_pos (List.mem_cons_self _ _), ha]
      · have hne : ¬ (a, v).1 = k' := fun he => hk' he.symm
        rw [show recLookup ((a, v) :: pick r ks) k' = recLookup (pick r ks) k' from
            alistGet_cons_ne hne,
          ih]
        simp [hk']

theorem rkeys_pick (r : IRecord) (ks : List String) :
    rkeys (pick r ks) = ks.filter (fun k => (recLookup r k).isSome) := by
  induction ks with
  | nil => rfl
  | cons a ks ih =>
    unfold pick at ih ⊢
    rw [List.filterMap_cons, List.filter_cons]
    cases ha : recLookup r a with
    | none => simpa [ha] using ih
    | some v => simpa [rkeys, ha] using ih

theorem jsStrictEq_eq {v w : CellValue} (h : jsStrictEq v w = true) :
    v = w ∧ isPrim v = true := by
  cases v <;> cases w <;> simp_all [jsStrictEq, isPrim]

theorem jsStrictEq_refl {v : CellValue} (h : isPrim v = true) :
    jsStrictEq v v = true := by
  cases v <;> simp_all [jsStrictEq, isPrim]

theorem jsValEq_eq {a b : Option CellValue}
    (hprim : ∀ v, a = some v → isPrim v = true) (h : jsValEq a b = true) : a = b := by
  cases a with
  | none => cases b <;> simp_all [jsValEq]
  | some v =>
    cases b with
    | none => simp_all [jsValEq]
    | some w =>
      simp only [jsValEq] at h
      exact congrArg some (jsStrictEq_eq h).1

theorem jsValEq_refl {a : Option CellValue}
    (hprim : ∀ v, a = some v → isPrim v = true) : jsValEq a a = true := by
  cases a with
  | none => rfl
  | some v => exact jsStrictEq_refl (hprim v rfl)

/-! ### Claim C9: key-tuple serialization -/

/-- C9, counterexample: the serialized lookup keys do not distinguish every
pair of differing typed projections.  A record missing the key column `a`
(projection `undefined`) and a record holding `null` at `a` have differing
projections, yet both serialize to the key `[null]`, because `JSON.stringify`
prints an `undefined` array entry as `null`. -/
theorem c9_counterexample :
    recKey ["a"] ([] : IRecord) = recKey ["a"] [("a", some CellValue.null)] ∧
      jsGet ([] : IRecord) "a" ≠ jsGet [("a", some CellValue.null)] "a" := by
  constructor
  · rfl
  · decide

/-- C9, amended: the serialization of the projected key tuple is injective
once a missing (`undefined`) key column is read as `null`: whenever the
projections of two records onto the key columns differ after that
normalization — in particular whenever corresponding positions hold values of
different types, such as numeric `1` versus string `"1"` — the serialized
lookup keys differ. -/
theorem c9_recKey_type_disambiguating (keyColIds : List String) (r1 r2 : IRecord)
    (h : keyColIds.map (fun c => undefToNull (jsGet r1 c)) ≠
         keyColIds.map (fun c => undefToNull (jsGet r2 c))) :
    recKey keyColIds r1 ≠ recKey keyColIds r2 := by
  intro he
  exact h ((recKey_eq_iff keyColIds r1 r2).mp he)

/-- C9, witness: numeric `1` and string `"1"` at the key column produce
different serialized keys. -/
theorem c9_witness :
    (["a"].map (fun c => undefToNull (jsGet [("a", some (CellValue.num 1))] c)) ≠
      ["a"].map (fun c => undefToNull (jsGet [("a", some (CellValue.str "1"))] c))) ∧
      recKey ["a"] [("a", some (CellValue.num 1))] ≠
        recKey ["a"] [("a", some (CellValue.str "1"))] :=
  ⟨by decide, c9_recKey_type_disambiguating ["a"] _ _ (by decide)⟩

/-! ### syncStep case lemmas -/

theorem syncStep_filtered (lookup : List (String × IRecord)) (keyColIds : List String)
    (fs : IFilterSpec) (acc : List IRecord × List IRecord) (newRec : IRecord)
    (h : filterMatches newRec fs = false) :
    syncStep lookup keyColIds (some fs) acc newRec = acc := by
  unfold syncStep
  rw [if_pos (by simp [filteredOut, h])]

theorem syncStep_matched (lookup : List (String × IRecord)) (keyColIds : List String)
    (filters : Option IFilterSpec) (acc : List IRecord × List IRecord)
    (newRec oldRec : IRecord)
    (hfilt : ∀ fs, filters = some fs → filterMatches newRec fs = true)
    (hmatch : mapGet lookup (recKey keyColIds newRec) = some oldRec) :
    syncStep lookup keyColIds filters acc newRec =
      if (changedKeysOf newRec oldRec).isEmpty then acc
      else (acc.1 ++ [mkUpdate newRec oldRec], acc.2) := by
  unfold syncStep
  rw [if_neg ?hguard, hmatch]
  case hguard =>
    cases filters with
    | none => simp [filteredOut]
    | some fs => simp [filteredOut, hfilt fs rfl]

theorem syncStep_unmatched (lookup : List (String × IRecord)) (keyColIds : List String)
    (filters : Option IFilterSpec) (acc : List IRecord × List IRecord)
    (newRec : IRecord)
    (hfilt : ∀ fs, filters = some fs → filterMatches newRec fs = true)
    (hmatch : mapGet lookup (recKey keyColIds newRec) = none) :
    syncStep lookup keyColIds filters acc newRec = (acc.1, acc.2 ++ [newRec]) := by
  unfold syncStep
  rw [if_neg ?hguard, hmatch]
  case hguard =>
    cases filters with
    | none => simp [filteredOut]
    | some fs => simp [filteredOut, hfilt fs rfl]

theorem changedKeysOf_sub (newRec oldRec : IRecord) :
    ∀ c ∈ changedKeysOf newRec oldRec, c ∈ rkeys newRec := by
  intro c hc
  exact (List.mem_filter.mp hc).1

theorem changedKeysOf_ne_nil_iff (newRec oldRec : IRecord) :
    (¬ (changedKeysOf newRec oldRec).isEmpty = true) ↔
      ∃ c ∈ rkeys newRec, jsNe (jsGet newRec c) (jsGet oldRec c) = true := by
  rw [List.isEmpty_iff]
  constructor
  · intro h
    obtain ⟨c, hc⟩ := List.exists_mem_of_ne_nil _ h
    exact ⟨c, (List.mem_filter.mp hc).1, (List.mem_filter.mp hc).2⟩
  · rintro ⟨c, hc, hne⟩
    exact List.ne_nil_of_mem (List.mem_filter.mpr ⟨hc, hne⟩)

/-! ### Claims C3 and C10: diff minimality and the staged id -/

/-- C3: for a record that passes the filters and matches a fetched row, an
update is staged if and only if some column present in the input record has a
value differing (under `!==`) from the matched row's value; and the staged
update holds exactly the changed columns plus `id`, with the changed columns
carrying the input record's values and `id` carrying the matched row's id. -/
theorem c3_diff_minimality (lookup : List (String × IRecord)) (keyColIds : List String)
    (filters : Option IFilterSpec) (acc : List IRecord × List IRecord)
    (newRec oldRec : IRecord)
    (hfilt : ∀ fs, filters = some fs → filterMatches newRec fs = true)
    (hmatch : mapGet lookup (recKey keyColIds newRec) = some oldRec) :
    ((∃ c ∈ rkeys newRec, jsNe (jsGet newRec c) (jsGet oldRec c) = true) ↔
      syncStep lookup keyColIds filters acc newRec =
        (acc.1 ++ [mkUpdate newRec oldRec], acc.2)) ∧
    (¬ (∃ c ∈ rkeys newRec, jsNe (jsGet newRec c) (jsGet oldRec c) = true) →
      syncStep lookup keyColIds filters acc newRec = acc) ∧
    rkeys (mkUpdate newRec oldRec) =
      (if "id" ∈ changedKeysOf newRec oldRec then changedKeysOf newRec oldRec
       else changedKeysOf newRec oldRec ++ ["id"]) ∧
    (∀ c ∈ changedKeysOf newRec oldRec, c ≠ "id" →
      recLookup (mkUpdate newRec oldRec) c = recLookup newRec c) ∧
    recLookup (mkUpdate newRec oldRec) "id" = some (jsGet oldRec "id") := by
  have hstep := syncStep_matched lookup keyColIds filters acc newRec oldRec hfilt hmatch
  have hiff := changedKeysOf_ne_nil_iff newRec oldRec
  have hpickkeys : rkeys (pick newRec (changedKeysOf newRec oldRec)) =
      changedKeysOf newRec oldRec := by
    rw [rkeys_pick, List.filter_eq_self]
    intro c hc
    exact alistGet_isSome_of_mem (changedKeysOf_sub newRec oldRec c hc)
  refine ⟨?_, ?_, ?_, ?_, ?_⟩
  · constructor
    · intro hex
      rw [hstep, if_neg (fun he => (hiff.mpr hex) he)]
    · intro heq
      by_contra hex
      rw [hstep] at heq
      have hemp : (changedKeysOf newRec oldRec).isEmpty = true := by
        by_contra hne
        exact hex (hiff.mp hne)
      rw [if_pos hemp] at heq
      have hlen := congrArg (fun q : List IRecord × List IRecord => q.1.length) heq
      simp only [List.length_append, List.length_cons, List.length_nil] at hlen
      omega
  · intro hex
    rw [hstep, if_pos (by by_contra hne; exact hex (hiff.mp hne))]
  · unfold mkUpdate
    rw [rkeys_rsetV, hpickkeys]
  · intro c hc hne
    unfold mkUpdate
    rw [recLookup_rsetV, if_neg hne, recLookup_pick, if_pos hc]
  · unfold mkUpdate
    rw [recLookup_rsetV, if_pos rfl]

/-- C3, witness: syncing `{Name: "eggs", Qty: 0}` against a matched row
`{id: 1, Name: "eggs", Qty: 12}` stages exactly the update
`{Qty: 0, id: 1}`. -/
theorem c3_witness :
    mapGet
        (buildLookup ["Name"]
          [[("id", some (CellValue.num 1)), ("Name", some (CellValue.str "eggs")),
            ("Qty", some (CellValue.num 12))]])
        (recKey ["Name"]
          [("Name", some (CellValue.str "eggs")), ("Qty", some (CellValue.num 0))]) =
        some [("id", some (CellValue.num 1)), ("Name", some (CellValue.str "eggs")),
          ("Qty", some (CellValue.num 12))] ∧
      ((∃ c ∈ rkeys [("Name", some (CellValue.str "eggs")), ("Qty", some (CellValue.num 0))],
          jsNe
            (jsGet [("Name", some (CellValue.str "eggs")), ("Qty", some (CellValue.num 0))] c)
            (jsGet [("id", some (CellValue.num 1)), ("Name", some (CellValue.str "eggs")),
              ("Qty", some (CellValue.num 12))] c) = true) ↔
        syncStep
          (buildLookup ["Name"]
            [[("id", some (CellValue.num 1)), ("Name", some (CellValue.str "eggs")),
              ("Qty", some (CellValue.num 12))]])
          ["Name"] none ([], [])
          [("Name", some (CellValue.str "eggs")), ("Qty", some (CellValue.num 0))] =
          ([] ++ [mkUpdate
            [("Name", some (CellValue.str "eggs")), ("Qty", some (CellValue.num 0))]
            [("id", some (CellValue.num 1)), ("Name", some (CellValue.str "eggs")),
              ("Qty", some (CellValue.num 12))]], [])) :=
  ⟨by decide,
    (c3_diff_minimality _ ["Name"] none ([], []) _ _
      (fun fs h => nomatch h) (by decide)).1⟩

/-- C10: whenever a matched input record stages an update, the staged `id` is
the matched row's id, even when the input record carries its own differing
`id` — and such a differing input `id` does count as a changed column, forcing
an update to be staged. -/
theorem c10_staged_id_from_matched_row (lookup : List (String × IRecord))
    (keyColIds : List String) (filters : Option IFilterSpec)
    (acc : List IRecord × List IRecord) (newRec oldRec : IRecord)
    (hfilt : ∀ fs, filters = some fs → filterMatches newRec fs = true)
    (hmatch : mapGet lookup (recKey keyColIds newRec) = some oldRec)
    (hid : "id" ∈ rkeys newRec)
    (hne : jsNe (jsGet newRec "id") (jsGet oldRec "id") = true) :
    syncStep lookup keyColIds filters acc newRec =
      (acc.1 ++ [mkUpdate newRec oldRec], acc.2) ∧
    "id" ∈ changedKeysOf newRec oldRec ∧
    recLookup (mkUpdate newRec oldRec) "id" = some (jsGet oldRec "id") ∧
    jsGet (mkUpdate newRec oldRec) "id" = jsGet oldRec "id" := by
  have hchanged : "id" ∈ changedKeysOf newRec oldRec :=
    List.mem_filter.mpr ⟨hid, hne⟩
  refine ⟨?_, hchanged, ?_, ?_⟩
  · rw [syncStep_matched lookup keyColIds filters acc newRec oldRec hfilt hmatch,
      if_neg (fun he => ?_)]
    rw [List.isEmpty_iff] at he
    rw [he] at hchanged
    exact absurd hchanged (List.not_mem_nil _)
  · unfold mkUpdate
    rw [recLookup_rsetV, if_pos rfl]
  · unfold mkUpdate jsGet
    rw [recLookup_rsetV, if_pos rfl]
    rfl

/-- C10, witness: an input record carrying `id: 99` matched against the row
with `id: 1` stages an update whose `id` is `1`. -/
theorem c10_witness :
    ("id" ∈ rkeys [("k", some (CellValue.num 1)), ("id", some (CellValue.num 99))]) ∧
      (jsNe
        (jsGet [("k", some (CellValue.num 1)), ("id", some (CellValue.num 99))] "id")
        (jsGet [("id", some (CellValue.num 1)), ("k", some (CellValue.num 1))] "id") = true) ∧
      jsGet
        (mkUpdate [("k", some (CellValue.num 1)), ("id", some (CellValue.num 99))]
          [("id", some (CellValue.num 1)), ("k", some (CellValue.num 1))]) "id" =
        jsGet [("id", some (CellValue.num 1)), ("k", some (CellValue.num 1))] "id" :=
  ⟨by decide, by decide,
    (c10_staged_id_from_matched_row
      (buildLookup ["k"] [[("id", some (CellValue.num 1)), ("k", some (CellValue.num 1))]])
      ["k"] none ([], [])
      [("k", some (CellValue.num 1)), ("id", some (CellValue.num 99))]
      [("id", some (CellValue.num 1)), ("k", some (CellValue.num 1))]
      (fun fs h => nomatch h) (by decide) (by decide) (by decide)).2.2.2⟩

/-! ### Claim C2: the filter-subset precondition of syncTable -/

/-- C2: when `filters` is supplied and some filter column is absent from
`keyColIds`, `syncTable` fails with the precondition error and the call trace
is empty — no fetch, update, or insert is issued. -/
theorem c2_sync_filter_precondition (chunkSize : Nat) (tableName : String)
    (T records : List IRecord) (keyColIds : List String) (fs : IFilterSpec)
    (h : ∃ p ∈ fs, ¬ p.1 ∈ keyColIds) :
    syncTableRun chunkSize tableName T records keyColIds (some fs) =
      ([], .error syncErrMsg) := by
  have hpre : syncPrecondOk keyColIds (some fs) = false := by
    obtain ⟨p, hp, hmem⟩ := h
    simp only [syncPrecondOk]
    rw [List.all_eq_false]
    exact ⟨p.1, List.mem_map_of_mem _ hp, by simpa using hmem⟩
  unfold syncTableRun
  rw [if_pos (by rw [hpre]; rfl)]

/-- C2, witness: a filter on column `b` with key columns `["a"]` fails with
the precondition error and an empty call trace. -/
theorem c2_witness :
    (∃ p ∈ [("b", [CellValue.num 1])], ¬ p.1 ∈ ["a"]) ∧
      syncTableRun 500 "Table1" [] [] ["a"] (some [("b", [CellValue.num 1])]) =
        ([], .error syncErrMsg) :=
  ⟨by decide, c2_sync_filter_precondition 500 "Table1" [] [] ["a"] _ (by decide)⟩

/-! ### Chunking lemmas -/

theorem chunksOfAux_fuel {α : Type} (n : Nat) :
    ∀ (f1 f2 : Nat) (l : List α), l.length ≤ f1 → l.length ≤ f2 →
      chunksOfAux f1 n l = chunksOfAux f2 n l := by
  intro f1
  induction f1 with
  | zero =>
    intro f2 l h1 _
    have hl : l = [] := List.eq_nil_of_length_eq_zero (by omega)
    subst hl
    cases f2 <;> rfl
  | succ f ih =>
    intro f2 l h1 h2
    cases l with
    | nil => cases f2 <;> rfl
    | cons x xs =>
      obtain ⟨f2', rfl⟩ : ∃ f2', f2 = f2' + 1 :=
        ⟨f2 - 1, by simp only [List.length_cons] at h2; omega⟩
      simp only [chunksOfAux]
      by_cases hn : n = 0
      · rw [if_pos hn, if_pos hn]
      · rw [if_neg hn, if_neg hn]
        congr 1
        apply ih
        · rw [List.length_drop]
          simp only [List.length_cons] at h1
          omega
        · rw [List.length_drop]
          simp only [List.length_cons] at h2
          omega

theorem chunksOf_nil {α : Type} (n : Nat) : chunksOf n ([] : List α) = [] := rfl

theorem chunksOf_cons {α : Type} {n : Nat} (hn : n ≠ 0) (x : α) (xs : List α) :
    chunksOf n (x :: xs) =
      (x :: xs.take (n - 1)) :: chunksOf n (xs.drop (n - 1)) := by
  show chunksOfAux (xs.length + 1) n (x :: xs) = _
  simp only [chunksOfAux]
  rw [if_neg hn]
  congr 1
  apply chunksOfAux_fuel
  · rw [List.length_drop]
    omega
  · exact le_refl _

theorem chunksOf_flatten {α : Type} (n : Nat) (hn : 0 < n) (l : List α) :
    (chunksOf n l).flatten = l := by
  generalize hlen : l.length = N
  induction N using Nat.strong_induction_on generalizing l with
  | _ N ih =>
    cases l with
    | nil => rw [chunksOf_nil]; rfl
    | cons x xs =>
      rw [chunksOf_cons (by omega), List.flatten_cons,
        ih (xs.drop (n - 1)).length (by simp at hlen ⊢; omega) _ rfl]
      simp

theorem chunksOf_mem_bounds {α : Type} (n : Nat) (hn : 0 < n) (l : List α) :
    ∀ c ∈ chunksOf n l, c ≠ [] ∧ c.length ≤ n := by
  generalize hlen : l.length = N
  induction N using Nat.strong_induction_on generalizing l with
  | _ N ih =>
    cases l with
    | nil => intro c hc; rw [chunksOf_nil] at hc; exact absurd hc (List.not_mem_nil c)
    | cons x xs =>
      intro c hc
      rw [chunksOf_cons (by omega)] at hc
      rcases List.mem_cons.mp hc with hc | hc
      · subst hc
        refine ⟨by simp, ?_⟩
        simp only [List.length_cons]
        have := List.length_take_le (n - 1) xs
        omega
      · exact ih (xs.drop (n - 1)).length (by simp at hlen ⊢; omega) _ rfl c hc

theorem mem_of_mem_chunksOf {α : Type} {n : Nat} (hn : 0 < n) {l : List α}
    {c : List α} {r : α} (hc : c ∈ chunksOf n l) (hr : r ∈ c) : r ∈ l := by
  rw [← chunksOf_flatten n hn l]
  exact List.mem_flatten.mpr ⟨c, hc, hr⟩

/-! ### The grouping of updateRecords -/

theorem updateGroups_ok_of_valid (records : List IRecord)
    (h : ∀ r ∈ records, validId r = true) :
    updateGroups records =
      .ok (records.foldl (fun gs rec => groupUpsert gs (groupKeyStr rec) rec) []) := by
  unfold updateGroups
  suffices hgen : ∀ g, records.foldlM
      (fun gs rec =>
        if !validId rec then Except.error updErrMsg
        else Except.ok (groupUpsert gs (groupKeyStr rec) rec))
      g = .ok (records.foldl (fun gs rec => groupUpsert gs (groupKeyStr rec) rec) g) by
    exact hgen []
  induction records with
  | nil => intro g; rfl
  | cons r rs ih =>
    intro g
    rw [List.foldlM_cons, if_neg (by simp [h r (List.mem_cons_self r rs)])]
    have ih2 := ih (fun x hx => h x (List.mem_cons_of_mem r hx))
    simpa [List.foldl_cons] using ih2 (groupUpsert g (groupKeyStr r) r)

theorem updateGroups_error_of_invalid (records : List IRecord)
    (h : ∃ r ∈ records, validId r = false) :
    updateGroups records = .error updErrMsg := by
  unfold updateGroups
  suffices hgen : ∀ g, records.foldlM
      (fun gs rec =>
        if !validId rec then Except.error updErrMsg
        else Except.ok (groupUpsert gs (groupKeyStr rec) rec))
      g = .error updErrMsg by
    exact hgen []
  induction records with
  | nil => simp at h
  | cons r rs ih =>
    intro g
    rw [List.foldlM_cons]
    by_cases hv : validId r = true
    · obtain ⟨r', hr', hv'⟩ := h
      rcases List.mem_cons.mp hr' with he | hmem
      · rw [he] at hv'
        rw [hv] at hv'
        exact Bool.noConfusion hv'
      · rw [if_neg (by simp [hv])]
        simpa using ih ⟨r', hmem, hv'⟩ (groupUpsert g (groupKeyStr r) r)
    · rw [if_pos (by simp [Bool.not_eq_true] at hv ⊢; exact hv)]
      rfl

theorem firstSeenKeysAux_fuel :
    ∀ (f1 f2 : Nat) (l : List String), l.length ≤ f1 → l.length ≤ f2 →
      firstSeenKeysAux f1 l = firstSeenKeysAux f2 l := by
  intro f1
  induction f1 with
  | zero =>
    intro f2 l h1 _
    have hl : l = [] := List.eq_nil_of_length_eq_zero (by omega)
    subst hl
    cases f2 <;> rfl
  | succ f ih =>
    intro f2 l h1 h2
    cases l with
    | nil => cases f2 <;> rfl
    | cons k ks =>
      obtain ⟨f2', rfl⟩ : ∃ f2', f2 = f2' + 1 :=
        ⟨f2 - 1, by simp only [List.length_cons] at h2; omega⟩
      simp only [firstSeenKeysAux]
      congr 1
      apply ih
      · have := List.length_filter_le (fun x => x != k) ks
        simp only [List.length_cons] at h1
        omega
      · have := List.length_filter_le (fun x => x != k) ks
        simp only [List.length_cons] at h2
        omega

theorem firstSeenKeys_nil : firstSeenKeys [] = [] := rfl

theorem firstSeenKeys_cons (k : String) (ks : List String) :
    firstSeenKeys (k :: ks) = k :: firstSeenKeys (ks.filter (fun x => x != k)) := by
  show firstSeenKeysAux (ks.length + 1) (k :: ks) = _
  simp only [firstSeenKeysAux]
  congr 1
  apply firstSeenKeysAux_fuel
  · exact List.length_filter_le _ _
  · exact le_refl _

theorem firstSeenKeys_sub (l : List String) : ∀ x ∈ firstSeenKeys l, x ∈ l := by
  generalize hlen : l.length = N
  induction N using Nat.strong_induction_on generalizing l with
  | _ N ih =>
    cases l with
    | nil => intro x hx; exact absurd hx (List.not_mem_nil x)
    | cons k ks =>
      intro x hx
      rw [firstSeenKeys_cons] at hx
      rcases List.mem_cons.mp hx with hx | hx
      · exact hx ▸ List.mem_cons_self _ _
      · have hlt : (ks.filter (fun x => x != k)).length < N := by
          simp only [List.length_cons] at hlen
          have := List.length_filter_le (fun x => x != k) ks
          omega
        have := ih _ hlt _ rfl x hx
        exact List.mem_cons_of_mem _ (List.mem_of_mem_filter this)

theorem beq_false_of_ne {a b : String} (h : ¬ a = b) : (a == b) = false := by
  simpa using h

theorem not_mem_of_contains_false {l : List String} {a : String}
    (h : l.contains a = false) : ¬ a ∈ l := by
  intro hm
  have h2 : l.contains a = true := List.elem_iff.mpr hm
  rw [h] at h2
  exact Bool.noConfusion h2

theorem contains_true_of_mem {l : List String} {a : String} (h : a ∈ l) :
    l.contains a = true :=
  List.elem_iff.mpr h

theorem contains_append_str (l1 l2 : List String) (a : String) :
    (l1 ++ l2).contains a = (l1.contains a || l2.contains a) := by
  induction l1 with
  | nil => simp
  | cons x l ih => simp [List.contains_cons, ih, Bool.or_assoc]

theorem groups_foldl_char (records : List IRecord) :
    ∀ g : List (String × List IRecord),
      records.foldl (fun gs rec => groupUpsert gs (groupKeyStr rec) rec) g =
        g.map (fun p => (p.1, p.2 ++ records.filter (fun r => groupKeyStr r == p.1)))
          ++ (firstSeenKeys ((records.map groupKeyStr).filter
                (fun k => !(g.map Prod.fst).contains k))).map
              (fun k => (k, records.filter (fun r => groupKeyStr r == k))) := by
  induction records with
  | nil =>
    intro g
    simp [firstSeenKeys_nil]
  | cons r rs ih =>
    intro g
    rw [List.foldl_cons, ih (groupUpsert g (groupKeyStr r) r)]
    by_cases hmem : (g.map Prod.fst).contains (groupKeyStr r) = true
    · rw [show groupUpsert g (groupKeyStr r) r =
          g.map (fun p => if p.1 == groupKeyStr r then (p.1, p.2 ++ [r]) else p) from by
        unfold groupUpsert; rw [if_pos hmem]]
      have hkeys : (g.map (fun p =>
          if p.1 == groupKeyStr r then (p.1, p.2 ++ [r]) else p)).map Prod.fst =
          g.map Prod.fst := by
        rw [List.map_map]
        apply List.map_congr_left
        intro p _
        by_cases hpk : p.1 = groupKeyStr r <;> simp [hpk]
      congr 1
      · rw [List.map_map]
        apply List.map_congr_left
        intro p _
        by_cases hpk : p.1 = groupKeyStr r
        · have h1 : (p.1 == groupKeyStr r) = true := by simpa using hpk
          have h2 : (groupKeyStr r == p.1) = true := by simpa using hpk.symm
          simp [Function.comp, h1, h2, List.filter_cons]
        · have h1 : (p.1 == groupKeyStr r) = false := beq_false_of_ne hpk
          have h2 : (groupKeyStr r == p.1) = false :=
            beq_false_of_ne (fun he => hpk he.symm)
          simp [Function.comp, h1, h2, List.filter_cons]
      · rw [hkeys, List.map_cons, List.filter_cons]
        rw [show (!(g.map Prod.fst).contains (groupKeyStr r)) = false by rw [hmem]; rfl]
        rw [if_neg Bool.false_ne_true]
        apply List.map_congr_left
        intro k hk
        have hkmem := firstSeenKeys_sub _ k hk
        have hcont : ((g.map Prod.fst).contains k) = false := by
          simpa using (List.mem_filter.mp hkmem).2
        have hkne : (groupKeyStr r == k) = false := by
          apply beq_false_of_ne
          intro he
          rw [← he] at hcont
          rw [hcont] at hmem
          exact Bool.noConfusion hmem
        simp [List.filter_cons, hkne]
    · have hmemf : (g.map Prod.fst).contains (groupKeyStr r) = false := by
        simpa using hmem
      have hmem' : ¬ groupKeyStr r ∈ g.map Prod.fst := not_mem_of_contains_false hmemf
      rw [show groupUpsert g (groupKeyStr r) r = g ++ [(groupKeyStr r, [r])] from by
        unfold groupUpsert; rw [if_neg hmem]]
      rw [List.map_append]
      have hgpart : g.map (fun p => (p.1, p.2 ++ rs.filter (fun x => groupKeyStr x == p.1))) =
          g.map (fun p => (p.1, p.2 ++ (r :: rs).filter (fun x => groupKeyStr x == p.1))) := by
        apply List.map_congr_left
        intro p hp
        have hne : (groupKeyStr r == p.1) = false :=
          beq_false_of_ne (fun he => hmem' (he ▸ List.mem_map_of_mem Prod.fst hp))
        simp [List.filter_cons, hne]
      have hentry : List.map
            (fun p => (p.1, p.2 ++ rs.filter (fun x => groupKeyStr x == p.1)))
            [(groupKeyStr r, [r])] =
          [(groupKeyStr r, (r :: rs).filter (fun x => groupKeyStr x == groupKeyStr r))] := by
        simp [List.filter_cons]
      have hkeyfilter : (rs.map groupKeyStr).filter
            (fun k => !((g ++ [(groupKeyStr r, [r])]).map Prod.fst).contains k) =
          ((rs.map groupKeyStr).filter (fun k => !(g.map Prod.fst).contains k)).filter
            (fun x => x != groupKeyStr r) := by
        rw [List.filter_filter]
        apply List.filter_congr
        intro k _
        rw [List.map_append, contains_append_str]
        rw [show ([(groupKeyStr r, [r])].map Prod.fst) = [groupKeyStr r] from rfl]
        rw [List.contains_cons,
          show (([] : List String).contains k) = false from rfl, Bool.or_false]
        rw [show (k != groupKeyStr r) = !(k == groupKeyStr r) from rfl]
        cases hc1 : (g.map Prod.fst).contains k <;> cases hc2 : k == groupKeyStr r <;> rfl
      rw [hgpart, hentry, hkeyfilter]
      rw [show ((r :: rs).map groupKeyStr).filter (fun k => !(g.map Prod.fst).contains k) =
          groupKeyStr r :: (rs.map groupKeyStr).filter
            (fun k => !(g.map Prod.fst).contains k) from by
        rw [List.map_cons, List.filter_cons,
          show (!(g.map Prod.fst).contains (groupKeyStr r)) = true from by
            rw [hmemf]; rfl]
        rw [if_pos rfl]]
      rw [firstSeenKeys_cons, List.map_cons]
      have hlast : List.map (fun k => (k, rs.filter (fun x => groupKeyStr x == k)))
            (firstSeenKeys (((rs.map groupKeyStr).filter
              (fun k => !(g.map Prod.fst).contains k)).filter
                (fun x => x != groupKeyStr r))) =
          List.map (fun k => (k, (r :: rs).filter (fun x => groupKeyStr x == k)))
            (firstSeenKeys (((rs.map groupKeyStr).filter
              (fun k => !(g.map Prod.fst).contains k)).filter
                (fun x => x != groupKeyStr r))) := by
        apply List.map_congr_left
        intro k hk
        have hkmem := firstSeenKeys_sub _ k hk
        have hkne : (groupKeyStr r == k) = false := by
          apply beq_false_of_ne
          intro he
          have h2 := (List.mem_filter.mp hkmem).2
          rw [← he] at h2
          simp at h2
        simp [List.filter_cons, hkne]
      rw [hlast]
      simp

theorem foldl_append_eq_flatMap {β γ : Type} (f : β → List γ) (l : List β) :
    ∀ acc : List γ, l.foldl (fun a x => a ++ f x) acc = acc ++ l.flatMap f := by
  induction l with
  | nil => intro acc; simp
  | cons x xs ih =>
    intro acc
    rw [List.foldl_cons, ih (acc ++ f x), List.flatMap_cons, List.append_assoc]

theorem updateCallData_ok_of_valid (chunkSize : Nat) (records : List IRecord)
    (hval : ∀ r ∈ records, validId r = true) :
    updateCallData chunkSize records = .ok (updateGroupsSpec chunkSize records) := by
  unfold updateCallData
  rw [updateGroups_ok_of_valid records hval]
  simp only [Except.map]
  congr 1
  rw [groups_foldl_char records [], foldl_append_eq_flatMap]
  unfold updateGroupsSpec
  simp only [List.map_nil, List.nil_append, List.map_map, List.append_nil]
  rw [show (List.filter (fun k => ! ([] : List String).contains k)
        (records.map groupKeyStr)) =
      records.map groupKeyStr from List.filter_eq_self.mpr (fun a _ => rfl)]
  induction firstSeenKeys (records.map groupKeyStr) with
  | nil => rfl
  | cons k ks ih => simp [List.flatMap_cons, ih]

theorem updateCallData_error_of_invalid (chunkSize : Nat) (records : List IRecord)
    (h : ∃ r ∈ records, validId r = false) :
    updateCallData chunkSize records = .error updErrMsg := by
  unfold updateCallData
  rw [updateGroups_error_of_invalid records h]
  rfl

/-! ### Claims C4 and C7: updateRecords grouping and its id precondition -/

/-- C4: with valid ids, the call batches of `updateRecords` are exactly one
group per distinct sorted column set in first-encounter order, each group
listing its records in input order and split consecutively into chunks of at
most `chunkSize`; no batch mixes two records with different column sets, and
two records share a group exactly when they have the same set of column
names. -/
theorem c4_update_grouping (chunkSize : Nat) (records : List IRecord)
    (hcs : 0 < chunkSize)
    (hval : ∀ r ∈ records, validId r = true)
    (hwf : ∀ r ∈ records, WFRec r) :
    updateCallData chunkSize records = .ok (updateGroupsSpec chunkSize records) ∧
    (∀ c ∈ updateGroupsSpec chunkSize records, c ≠ [] ∧ c.length ≤ chunkSize ∧
      ∀ r1 ∈ c, ∀ r2 ∈ c, groupKeyStr r1 = groupKeyStr r2) ∧
    (∀ r1 ∈ records, ∀ r2 ∈ records,
      (groupKeyStr r1 = groupKeyStr r2 ↔ (rkeys r1).toFinset = (rkeys r2).toFinset)) := by
  refine ⟨updateCallData_ok_of_valid chunkSize records hval, ?_, ?_⟩
  · intro c hc
    unfold updateGroupsSpec at hc
    obtain ⟨k, -, hck⟩ := List.mem_flatMap.mp hc
    obtain ⟨hne, hlen⟩ := chunksOf_mem_bounds chunkSize hcs _ c hck
    refine ⟨hne, hlen, ?_⟩
    intro r1 hr1 r2 hr2
    have h1 := List.mem_filter.mp (mem_of_mem_chunksOf hcs hck hr1)
    have h2 := List.mem_filter.mp (mem_of_mem_chunksOf hcs hck hr2)
    have e1 : groupKeyStr r1 = k := by simpa using h1.2
    have e2 : groupKeyStr r2 = k := by simpa using h2.2
    rw [e1, e2]
  · intro r1 hr1 r2 hr2
    have hperm_toFinset : ∀ (l1 l2 : List String), List.Perm l1 l2 →
        l1.toFinset = l2.toFinset := by
      intro l1 l2 hp
      apply Finset.ext
      intro a
      simp [List.mem_toFinset, hp.mem_iff]
    constructor
    · intro hg
      have hsorted := (groupKeyStr_eq_iff r1 r2).mp hg
      have t1 := hperm_toFinset _ _ (List.perm_insertionSort (fun a b => a ≤ b) (rkeys r1))
      have t2 := hperm_toFinset _ _ (List.perm_insertionSort (fun a b => a ≤ b) (rkeys r2))
      rw [← t1, ← t2, hsorted]
    · intro hfin
      apply (groupKeyStr_eq_iff r1 r2).mpr
      have hmemiff : ∀ a, a ∈ rkeys r1 ↔ a ∈ rkeys r2 := by
        intro a
        rw [← List.mem_toFinset, ← List.mem_toFinset, hfin]
      have hperm : List.Perm (rkeys r1) (rkeys r2) :=
        (List.perm_ext_iff_of_nodup (hwf r1 hr1) (hwf r2 hr2)).mpr hmemiff
      have hp2 : List.Perm ((rkeys r1).insertionSort (fun a b => a ≤ b))
          ((rkeys r2).insertionSort (fun a b => a ≤ b)) :=
        ((List.perm_insertionSort _ _).trans hperm).trans
          (List.perm_insertionSort _ _).symm
      exact List.eq_of_perm_of_sorted hp2
        (List.sorted_insertionSort _ _) (List.sorted_insertionSort _ _)

/-- C4, witness: three records over two column sets are grouped into the two
sorted column-set groups in encounter order, chunked by size 1. -/
theorem c4_witness :
    (0 < 1) ∧
      (∀ r ∈ [[("id", some (CellValue.num 1)), ("a", some (CellValue.num 1))],
              [("id", some (CellValue.num 2)), ("b", some (CellValue.bool true))],
              [("id", some (CellValue.num 3)), ("a", some CellValue.null)]],
        validId r = true) ∧
      (∀ r ∈ [[("id", some (CellValue.num 1)), ("a", some (CellValue.num 1))],
              [("id", some (CellValue.num 2)), ("b", some (CellValue.bool true))],
              [("id", some (CellValue.num 3)), ("a", some CellValue.null)]],
        WFRec r) ∧
      updateCallData 1
          [[("id", some (CellValue.num 1)), ("a", some (CellValue.num 1))],
           [("id", some (CellValue.num 2)), ("b", some (CellValue.bool true))],
           [("id", some (CellValue.num 3)), ("a", some CellValue.null)]] =
        .ok (updateGroupsSpec 1
          [[("id", some (CellValue.num 1)), ("a", some (CellValue.num 1))],
           [("id", some (CellValue.num 2)), ("b", some (CellValue.bool true))],
           [("id", some (CellValue.num 3)), ("a", some CellValue.null)]]) :=
  ⟨by decide, by decide, by decide,
    (c4_update_grouping 1 _ (by decide) (by decide) (by decide)).1⟩

/-- C7, counterexample: a record with the numeric id `0` does not lack a
numeric `id` field, yet `updateRecords` rejects it, because the source guards
with the falsy check `!rec.id` before the `typeof` check. -/
theorem c7_counterexample :
    jsGet [("id", some (CellValue.num 0))] "id" = some (CellValue.num 0) ∧
      (updateRecordsRun 500 "Table1" [] [[("id", some (CellValue.num 0))]]).2 =
        .error updErrMsg := by
  constructor
  · rfl
  · rfl

/-- C7, amended: `updateRecords` fails with the id error exactly when some
record's `id` is missing, non-numeric, or zero (the falsy check `!rec.id`),
and in that case the error is raised during grouping, before any outbound
call is issued. -/
theorem c7_update_id_precondition (chunkSize : Nat) (tableName : String)
    (T records : List IRecord) :
    ((updateRecordsRun chunkSize tableName T records).2 = .error updErrMsg ↔
      ∃ r ∈ records, ¬ validId r = true) ∧
    ((∃ r ∈ records, ¬ validId r = true) →
      (updateRecordsRun chunkSize tableName T records).1 = []) := by
  have herr : (∃ r ∈ records, ¬ validId r = true) →
      updateRecordsRun chunkSize tableName T records = ([], .error updErrMsg) := by
    intro ⟨r, hr, hv⟩
    unfold updateRecordsRun
    rw [updateCallData_error_of_invalid chunkSize records
      ⟨r, hr, by simpa using hv⟩]
  constructor
  · constructor
    · intro h2
      by_contra hval
      push_neg at hval
      have := updateCallData_ok_of_valid chunkSize records
        (fun r hr => by simpa using hval r hr)
      unfold updateRecordsRun at h2
      rw [this] at h2
      exact Except.noConfusion h2
    · intro hex
      rw [herr hex]
  · intro hex
    rw [herr hex]

/-- C7, witness: a record with a string id makes `updateRecords` fail with no
outbound call. -/
theorem c7_witness :
    (∃ r ∈ [[("id", some (CellValue.str "x"))]], ¬ validId r = true) ∧
      ((updateRecordsRun 500 "Table1" [] [[("id", some (CellValue.str "x"))]]).2 =
          .error updErrMsg ↔
        ∃ r ∈ [[("id", some (CellValue.str "x"))]], ¬ validId r = true) ∧
      (updateRecordsRun 500 "Table1" [] [[("id", some (CellValue.str "x"))]]).1 = [] := by
  have h := c7_update_id_precondition 500 "Table1" [] [[("id", some (CellValue.str "x"))]]
  exact ⟨by decide, h.1, h.2 (by decide)⟩

/-! ### The codec: claims C6 and C5 -/

theorem firstSeenKeys_mem_iff :
    ∀ (l : List String) (x : String), x ∈ firstSeenKeys l ↔ x ∈ l := by
  intro l
  generalize hlen : l.length = N
  induction N using Nat.strong_induction_on generalizing l with
  | _ N ih =>
    cases l with
    | nil => intro x; rw [firstSeenKeys_nil]
    | cons k ks =>
      intro x
      rw [firstSeenKeys_cons, List.mem_cons, List.mem_cons,
        ih (ks.filter (fun x => x != k)).length
          (by
            have := List.length_filter_le (fun x => x != k) ks
            simp only [List.length_cons] at hlen
            omega)
          _ rfl x]
      constructor
      · rintro (he | hmem)
        · exact Or.inl he
        · exact Or.inr (List.mem_of_mem_filter hmem)
      · rintro (he | hmem)
        · exact Or.inl he
        · by_cases he2 : x = k
          · exact Or.inl he2
          · exact Or.inr (List.mem_filter.mpr ⟨hmem, by simpa using he2⟩)

theorem addNewKeys_foldl_char :
    ∀ (ks : List String) (acc : List String),
      ks.foldl (fun acc2 k => if acc2.contains k then acc2 else acc2 ++ [k]) acc =
        acc ++ firstSeenKeys (ks.filter (fun k => !acc.contains k)) := by
  intro ks
  induction ks with
  | nil => intro acc; simp [firstSeenKeys_nil]
  | cons k ks ih =>
    intro acc
    rw [List.foldl_cons]
    by_cases hc : acc.contains k = true
    · rw [if_pos hc, ih acc, List.filter_cons,
        show (!acc.contains k) = false from by rw [hc]; rfl,
        if_neg Bool.false_ne_true]
    · have hcf : acc.contains k = false := by simpa using hc
      rw [if_neg hc, ih (acc ++ [k]), List.filter_cons,
        show (!acc.contains k) = true from by rw [hcf]; rfl, if_pos rfl,
        firstSeenKeys_cons]
      rw [show (ks.filter (fun x => !acc.contains x)).filter (fun x => x != k) =
          ks.filter (fun x => !(acc ++ [k]).contains x) from by
        rw [List.filter_filter]
        apply List.filter_congr
        intro x _
        rw [contains_append_str, List.contains_cons,
          show (([] : List String).contains x) = false from rfl, Bool.or_false,
          show (x != k) = !(x == k) from rfl]
        cases h1 : acc.contains x <;> cases h2 : x == k <;> rfl]
      simp

theorem unionKeys_eq_firstSeenKeys (records : List IRecord) :
    unionKeys records = firstSeenKeys (records.flatMap rkeys) := by
  unfold unionKeys
  suffices hgen : ∀ acc,
      records.foldl
        (fun acc r =>
          (rkeys r).foldl (fun acc2 k => if acc2.contains k then acc2 else acc2 ++ [k]) acc)
        acc =
      (records.flatMap rkeys).foldl
        (fun acc2 k => if acc2.contains k then acc2 else acc2 ++ [k]) acc by
    rw [hgen [], addNewKeys_foldl_char]
    rw [show (records.flatMap rkeys).filter (fun k => ! ([] : List String).contains k) =
        records.flatMap rkeys from List.filter_eq_self.mpr (fun a _ => rfl)]
    rfl
  induction records with
  | nil => intro acc; rfl
  | cons r rs ih =>
    intro acc
    rw [List.foldl_cons, List.flatMap_cons, List.foldl_append, ih]

/-- C6: the wire form built by `makeTableData` has exactly one column per key
appearing across the records, in first-seen order, and each column lists, in
input order, every record's value at that key — an `undefined` hole (printed
as `null` on the wire) for records lacking the key.  The empty record list
produces the empty mapping. -/
theorem c6_makeTableData_spec (records : List IRecord) :
    makeTableData records =
      (firstSeenKeys (records.flatMap rkeys)).map
        (fun k => (k, records.map (fun r => jsGet r k))) ∧
    makeTableData [] = [] := by
  constructor
  · unfold makeTableData
    rw [unionKeys_eq_firstSeenKeys]
  · rfl

theorem alistGet_map_pair {β : Type} (l : List String) (g : String → β) (k : String) :
    alistGet (l.map (fun k => (k, g k))) k = if k ∈ l then some (g k) else none := by
  induction l with
  | nil => simp [alistGet]
  | cons a l ih =>
    by_cases ha : a = k
    · subst ha
      rw [List.map_cons, alistGet_cons_eq rfl, if_pos (List.mem_cons_self a l)]
    · rw [List.map_cons, alistGet_cons_ne ha, ih]
      by_cases hk : k ∈ l
      · rw [if_pos hk, if_pos (List.mem_cons_of_mem a hk)]
      · rw [if_neg hk, if_neg (fun hm => by
          rcases List.mem_cons.mp hm with he | hm2
          · exact ha he.symm
          · exact hk hm2)]

theorem alistGet_mem {α : Type} {m : List (String × α)} {k : String} {v : α}
    (h : alistGet m k = some v) : (k, v) ∈ m := by
  induction m with
  | nil => exact Option.noConfusion h
  | cons p m ih =>
    by_cases hpk : p.1 = k
    · rw [alistGet_cons_eq hpk] at h
      have hv := Option.some.inj h
      have hpair : (k, v) = p := by rw [← hpk, ← hv]
      rw [hpair]
      exact List.mem_cons_self p m
    · rw [alistGet_cons_ne hpk] at h
      exact List.mem_cons_of_mem p (ih h)

theorem getD_map_lt {α β : Type} (f : α → β) (l : List α) (i : Nat)
    (h : i < l.length) (d : β) : (l.map f).getD i d = f l[i] := by
  rw [List.getD_eq_getElem?_getD, List.getElem?_map, List.getElem?_eq_getElem h]
  rfl

theorem objEqB_of_lookup_eq {r1 r2 : IRecord}
    (h : ∀ k, k ∈ rkeys r1 ++ rkeys r2 → alistGet r1 k = alistGet r2 k) :
    objEqB r1 r2 = true := by
  unfold objEqB
  rw [List.all_eq_true]
  intro k hk
  rw [h k hk]
  exact beq_self_eq_true _

theorem recListObjEq_of_pointwise (l1 l2 : List IRecord)
    (hlen : l1.length = l2.length)
    (h : ∀ (i : Nat) (h1 : i < l1.length) (h2 : i < l2.length),
      objEqB l1[i] l2[i] = true) :
    recListObjEq l1 l2 = true := by
  unfold recListObjEq
  rw [Bool.and_eq_true]
  constructor
  · simp [hlen]
  · rw [List.all_eq_true]
    intro p hp
    obtain ⟨i, hi, hpi⟩ := List.mem_iff_getElem.mp hp
    have hiz : i < (l1.zip l2).length := hi
    rw [List.length_zip] at hiz
    have h1 : i < l1.length := lt_of_lt_of_le hiz (min_le_left _ _)
    have h2 : i < l2.length := lt_of_lt_of_le hiz (min_le_right _ _)
    rw [← hpi, List.getElem_zip]
    exact h i h1 h2

/-- C5, counterexample: for records with heterogeneous key sets, decoding the
wire form does not reproduce the originals as plain objects — the record
lacking column `a` comes back with `a` present (holding `undefined`, `null`
on the wire). -/
theorem c5_counterexample :
    toRecords "Table1" (makeTableData
        [[("id", some (CellValue.num 1)), ("a", some (CellValue.num 5))],
         [("id", some (CellValue.num 2))]]) =
      .ok [[("id", some (CellValue.num 1)), ("a", some (CellValue.num 5))],
           [("id", some (CellValue.num 2)), ("a", none)]] ∧
      recListObjEq
        [[("id", some (CellValue.num 1)), ("a", some (CellValue.num 5))],
         [("id", some (CellValue.num 2)), ("a", none)]]
        [[("id", some (CellValue.num 1)), ("a", some (CellValue.num 5))],
         [("id", some (CellValue.num 2))]] = false := by
  constructor
  · rfl
  · rfl

/-- C5, amended: for a non-empty list of records sharing one column set that
includes `id`, decoding the wire form reproduces the records as plain
key-to-value objects. -/
theorem c5_roundtrip_homogeneous (tableName : String) (records : List IRecord)
    (hne : records ≠ [])
    (hdef : ∀ r ∈ records, definedRec r = true)
    (hhom : ∀ r1 ∈ records, ∀ r2 ∈ records, (rkeys r1).toFinset = (rkeys r2).toFinset)
    (hid : ∀ r ∈ records, "id" ∈ rkeys r) :
    ∃ decoded, toRecords tableName (makeTableData records) = .ok decoded ∧
      recListObjEq decoded records = true := by
  have hUm : ∀ k, k ∈ unionKeys records ↔ ∃ r ∈ records, k ∈ rkeys r := by
    intro k
    rw [unionKeys_eq_firstSeenKeys, firstSeenKeys_mem_iff, List.mem_flatMap]
  have hidU : "id" ∈ unionKeys records := by
    obtain ⟨r0, hr0⟩ := List.exists_mem_of_ne_nil records hne
    exact (hUm "id").mpr ⟨r0, hr0, hid r0 hr0⟩
  have hget : alistGet (makeTableData records) "id" =
      some (records.map (fun r => jsGet r "id")) := by
    unfold makeTableData
    rw [alistGet_map_pair, if_pos hidU]
  refine ⟨(List.range (records.map (fun r => jsGet r "id")).length).map
      (fun i => (makeTableData records).map (fun p => (p.1, p.2.getD i none))), ?_, ?_⟩
  · unfold toRecords
    rw [hget]
  · apply recListObjEq_of_pointwise
    · simp
    · intro i h1 h2
      simp only [List.getElem_map, List.getElem_range]
      have hrow : (makeTableData records).map
            (fun p => (p.1, p.2.getD i none)) =
          (unionKeys records).map (fun k => (k, jsGet records[i] k)) := by
        unfold makeTableData
        rw [List.map_map]
        apply List.map_congr_left
        intro k _
        simp only [Function.comp_apply]
        rw [getD_map_lt _ _ _ h2]
      rw [hrow]
      apply objEqB_of_lookup_eq
      intro k hk
      have hmemi : records[i] ∈ records := List.getElem_mem h2
      have hkU : k ∈ unionKeys records := by
        rcases List.mem_append.mp hk with hk1 | hk2
        · have : rkeys ((unionKeys records).map (fun k => (k, jsGet records[i] k))) =
              unionKeys records := by
            unfold rkeys
            rw [List.map_map,
              show (Prod.fst ∘ fun k => (k, jsGet records[i] k)) = id from rfl,
              List.map_id]
          rw [this] at hk1
          exact hk1
        · exact (hUm k).mpr ⟨records[i], hmemi, hk2⟩
      have hki : k ∈ rkeys records[i] := by
        obtain ⟨r', hr', hkr'⟩ := (hUm k).mp hkU
        have hfin := hhom r' hr' records[i] hmemi
        rw [← List.mem_toFinset, ← hfin, List.mem_toFinset]
        exact hkr'
      rw [alistGet_map_pair, if_pos hkU]
      obtain ⟨w, hw⟩ := Option.isSome_iff_exists.mp
        (alistGet_isSome_of_mem (m := records[i]) hki)
      have hwdef : w.isSome = true := by
        have hmempair := alistGet_mem hw
        have := (List.all_eq_true.mp (hdef records[i] hmemi)) _ hmempair
        simpa using this
      obtain ⟨v, hv⟩ := Option.isSome_iff_exists.mp hwdef
      subst hv
      rw [hw]
      unfold jsGet recLookup
      rw [hw]
      rfl

/-- C5, witness: a homogeneous two-record list with `id` and `Name` columns
round-trips through the codec. -/
theorem c5_witness :
    ([[("id", some (CellValue.num 1)), ("Name", some (CellValue.str "a"))],
      [("id", some (CellValue.num 2)), ("Name", some (CellValue.str "b"))]] ≠
        ([] : List IRecord)) ∧
      (∀ r1 ∈ [[("id", some (CellValue.num 1)), ("Name", some (CellValue.str "a"))],
               [("id", some (CellValue.num 2)), ("Name", some (CellValue.str "b"))]],
        ∀ r2 ∈ [[("id", some (CellValue.num 1)), ("Name", some (CellValue.str "a"))],
                [("id", some (CellValue.num 2)), ("Name", some (CellValue.str "b"))]],
        (rkeys r1).toFinset = (rkeys r2).toFinset) ∧
      (∃ decoded, toRecords "Table1" (makeTableData
          [[("id", some (CellValue.num 1)), ("Name", some (CellValue.str "a"))],
           [("id", some (CellValue.num 2)), ("Name", some (CellValue.str "b"))]]) =
          .ok decoded ∧
        recListObjEq decoded
          [[("id", some (CellValue.num 1)), ("Name", some (CellValue.str "a"))],
           [("id", some (CellValue.num 2)), ("Name", some (CellValue.str "b"))]] = true) :=
  ⟨by decide, by decide,
    c5_roundtrip_homogeneous "Table1" _ (by decide) (by decide) (by decide) (by decide)⟩

/-! ### Claim C8: syncTable never removes a row -/

theorem chunksOf_zero {α : Type} (l : List α) : chunksOf 0 (l : List α) = [] := by
  cases l with
  | nil => rfl
  | cons x xs =>
    unfold chunksOf
    rw [List.length_cons]
    simp [chunksOfAux]

theorem mem_of_mem_chunksOf_any {α : Type} {n : Nat} {l : List α}
    {c : List α} {r : α} (hc : c ∈ chunksOf n l) (hr : r ∈ c) : r ∈ l := by
  cases n with
  | zero =>
    rw [chunksOf_zero] at hc
    exact absurd hc (List.not_mem_nil c)
  | succ m => exact mem_of_mem_chunksOf (Nat.succ_pos m) hc hr

theorem updateCallData_ok_mem {chunkSize : Nat} {records : List IRecord}
    {chunks : List (List IRecord)}
    (h : updateCallData chunkSize records = .ok chunks) :
    ∀ c ∈ chunks, ∀ r ∈ c, r ∈ records := by
  have hval : ∀ r ∈ records, validId r = true := by
    by_contra hcon
    push_neg at hcon
    obtain ⟨r, hr, hv⟩ := hcon
    have herr := updateCallData_error_of_invalid chunkSize records
      ⟨r, hr, by simpa using hv⟩
    rw [herr] at h
    exact Except.noConfusion h
  rw [updateCallData_ok_of_valid chunkSize records hval] at h
  have hcs : updateGroupsSpec chunkSize records = chunks := Except.ok.inj h
  rw [← hcs]
  intro c hc r hr
  unfold updateGroupsSpec at hc
  obtain ⟨k, -, hck⟩ := List.mem_flatMap.mp hc
  have hrm := mem_of_mem_chunksOf_any hck hr
  exact (List.mem_filter.mp hrm).1

theorem jsGet_overwrite : ∀ (u : IRecord), WFRec u → ∀ (row : IRecord) (k : String),
    jsGet (overwrite row u) k = (recLookup u k).getD (jsGet row k) := by
  intro u
  induction u with
  | nil => intro _ row k; rfl
  | cons p us ih =>
    intro hu row k
    have hu2 : WFRec us ∧ ¬ p.1 ∈ rkeys us := by
      unfold WFRec rkeys at hu ⊢
      rw [List.map_cons, List.nodup_cons] at hu
      exact ⟨hu.2, hu.1⟩
    rw [show overwrite row (p :: us) = overwrite (rsetV row p.1 p.2) us from rfl,
      ih hu2.1 (rsetV row p.1 p.2) k]
    cases hl : recLookup us k with
    | some v =>
      have hkm : k ∈ rkeys us := mem_of_alistGet_eq_some hl
      have hkp : ¬ p.1 = k := fun he => hu2.2 (he ▸ hkm)
      rw [show recLookup (p :: us) k = recLookup us k from alistGet_cons_ne hkp, hl]
      rfl
    | none =>
      rw [jsGet_rsetV]
      by_cases hk : k = p.1
      · rw [if_pos hk]
        rw [show recLookup (p :: us) k = some p.2 from alistGet_cons_eq hk.symm]
        rfl
      · rw [if_neg hk]
        have hne : ¬ p.1 = k := fun he => hk he.symm
        rw [show recLookup (p :: us) k = recLookup us k from alistGet_cons_ne hne, hl]

theorem overwrite_id_of_guard {row u : IRecord} (hu : WFRec u)
    (heq : jsGet row "id" = jsGet u "id") :
    jsGet (overwrite row u) "id" = jsGet row "id" := by
  rw [jsGet_overwrite u hu row]
  cases hl : recLookup u "id" with
  | none => rfl
  | some v =>
    have hv : jsGet u "id" = v := by unfold jsGet; rw [hl]; rfl
    simp [heq, hv]

theorem applyUpd1_ids (T : List IRecord) (u : IRecord) (hu : WFRec u) :
    idsOf (applyUpd1 T u) = idsOf T := by
  unfold idsOf applyUpd1
  rw [List.map_map]
  apply List.map_congr_left
  intro row _
  simp only [Function.comp_apply]
  by_cases hg : (jsGet row "id" == jsGet u "id") = true
  · rw [if_pos hg]
    have heq : jsGet row "id" = jsGet u "id" := by simpa using hg
    exact overwrite_id_of_guard hu heq
  · rw [if_neg hg]

theorem applySeq_cons (T : List IRecord) (u : IRecord) (us : List IRecord) :
    applySeq T (u :: us) = applySeq (applyUpd1 T u) us := rfl

theorem applySeq_ids : ∀ (us : List IRecord), (∀ u ∈ us, WFRec u) →
    ∀ T : List IRecord, idsOf (applySeq T us) = idsOf T := by
  intro us
  induction us with
  | nil => intro _ T; rfl
  | cons u us ih =>
    intro hwf T
    rw [applySeq_cons, ih (fun x hx => hwf x (List.mem_cons_of_mem u hx)) (applyUpd1 T u),
      applyUpd1_ids T u (hwf u (List.mem_cons_self u us))]

theorem applySeq_foldl_ids : ∀ (chunks : List (List IRecord)),
    (∀ c ∈ chunks, ∀ u ∈ c, WFRec u) →
    ∀ T : List IRecord, idsOf (chunks.foldl applySeq T) = idsOf T := by
  intro chunks
  induction chunks with
  | nil => intro _ T; rfl
  | cons c cs ih =>
    intro hwf T
    rw [List.foldl_cons,
      ih (fun d hd u hu => hwf d (List.mem_cons_of_mem c hd) u hu) (applySeq T c),
      applySeq_ids c (fun u hu => hwf c (List.mem_cons_self c cs) u hu) T]

theorem updateRecordsRun_ids {chunkSize : Nat} {tableName : String}
    {T records : List IRecord} {ucalls : List ApiCall} {T1 : List IRecord}
    (h : updateRecordsRun chunkSize tableName T records = (ucalls, .ok T1))
    (hwf : ∀ u ∈ records, WFRec u) : idsOf T1 = idsOf T := by
  unfold updateRecordsRun at h
  cases hc : updateCallData chunkSize records with
  | error e =>
    rw [hc] at h
    simp at h
  | ok chunks =>
    rw [hc] at h
    have hp : (chunks.map (fun recs => ApiCall.update tableName (makeTableData recs)),
        (Except.ok (chunks.foldl applySeq T) : Except String (List IRecord))) =
        (ucalls, Except.ok T1) := h
    have h2 : chunks.foldl applySeq T = T1 := by
      have hs := congrArg Prod.snd hp
      simpa using hs
    rw [← h2]
    exact applySeq_foldl_ids chunks
      (fun c hcm u hu => hwf u (updateCallData_ok_mem hc c hcm u hu)) T

theorem updateRecordsRun_calls (chunkSize : Nat) (tableName : String)
    (T records : List IRecord) :
    ∀ c ∈ (updateRecordsRun chunkSize tableName T records).1, isRemove c = false := by
  unfold updateRecordsRun
  cases hc : updateCallData chunkSize records with
  | error e => simp
  | ok chunks =>
    intro c hcm
    simp at hcm
    obtain ⟨recs, -, hEq⟩ := hcm
    rw [← hEq]
    rfl

theorem addRecordsRun_calls (chunkSize : Nat) (tableName : String)
    (T records : List IRecord) :
    ∀ c ∈ (addRecordsRun chunkSize tableName T records).1, isRemove c = false := by
  unfold addRecordsRun
  by_cases he : records.isEmpty = true
  · rw [if_pos he]
    simp
  · rw [if_neg he]
    intro c hcm
    simp at hcm
    obtain ⟨recs, -, hEq⟩ := hcm
    rw [← hEq]
    rfl

theorem addRecordsRun_snd (chunkSize : Nat) (tableName : String)
    (T records : List IRecord) :
    ∃ X, (addRecordsRun chunkSize tableName T records).2 = Except.ok (T ++ X) := by
  unfold addRecordsRun
  by_cases he : records.isEmpty = true
  · refine ⟨[], ?_⟩
    rw [if_pos he]
    simp
  · refine ⟨applyInsFrom (nextId T) records, ?_⟩
    rw [if_neg he]

theorem mkUpdate_wf {newRec oldRec : IRecord} (hw : WFRec newRec) :
    WFRec (mkUpdate newRec oldRec) := by
  unfold WFRec at hw ⊢
  unfold mkUpdate
  rw [rkeys_rsetV]
  have hnd : (rkeys (pick newRec (changedKeysOf newRec oldRec))).Nodup := by
    rw [rkeys_pick]
    unfold changedKeysOf
    exact (hw.filter _).filter _
  by_cases hid : "id" ∈ rkeys (pick newRec (changedKeysOf newRec oldRec))
  · rw [if_pos hid]
    exact hnd
  · rw [if_neg hid]
    simp [List.nodup_append, hnd, hid]

theorem syncStep_eq_comps (lookup : List (String × IRecord)) (keyColIds : List String)
    (filters : Option IFilterSpec) (acc : List IRecord × List IRecord)
    (newRec : IRecord) :
    syncStep lookup keyColIds filters acc newRec =
      (acc.1 ++ (updComp lookup keyColIds filters newRec).toList,
       acc.2 ++ (insComp lookup keyColIds filters newRec).toList) := by
  unfold syncStep updComp insComp
  by_cases hf : filteredOut filters newRec = true
  · rw [if_pos hf, if_pos hf, if_pos hf]
    simp
  · rw [if_neg hf, if_neg hf, if_neg hf]
    cases hm : mapGet lookup (recKey keyColIds newRec) with
    | some oldRec =>
      by_cases he : (changedKeysOf newRec oldRec).isEmpty = true
      · simp [he]
      · simp [he]
    | none => simp

theorem syncPlan_foldl_char (lookup : List (String × IRecord)) (keyColIds : List String)
    (filters : Option IFilterSpec) (records : List IRecord) :
    ∀ acc : List IRecord × List IRecord,
      records.foldl (syncStep lookup keyColIds filters) acc =
        (acc.1 ++ records.filterMap (updComp lookup keyColIds filters),
         acc.2 ++ records.filterMap (insComp lookup keyColIds filters)) := by
  induction records with
  | nil => intro acc; simp
  | cons r rs ih =>
    intro acc
    rw [List.foldl_cons, syncStep_eq_comps, ih, List.filterMap_cons, List.filterMap_cons]
    cases updComp lookup keyColIds filters r <;>
      cases insComp lookup keyColIds filters r <;>
        simp

theorem syncPlan_eq_filterMap (lookup : List (String × IRecord)) (keyColIds : List String)
    (filters : Option IFilterSpec) (records : List IRecord) :
    syncPlan lookup keyColIds filters records =
      (records.filterMap (updComp lookup keyColIds filters),
       records.filterMap (insComp lookup keyColIds filters)) := by
  unfold syncPlan
  rw [syncPlan_foldl_char]
  simp

theorem syncPlan_upd_wf (lookup : List (String × IRecord)) (keyColIds : List String)
    (filters : Option IFilterSpec) (records : List IRecord)
    (hw : ∀ r ∈ records, WFRec r) :
    ∀ u ∈ (syncPlan lookup keyColIds filters records).1, WFRec u := by
  rw [syncPlan_eq_filterMap]
  intro u hu
  obtain ⟨r, hr, hcomp⟩ := List.mem_filterMap.mp hu
  unfold updComp at hcomp
  split at hcomp
  · exact absurd hcomp (by simp)
  · split at hcomp
    · split at hcomp
      · exact absurd hcomp (by simp)
      · rw [← Option.some.inj hcomp]
        exact mkUpdate_wf (hw r hr)
    · exact absurd hcomp (by simp)

theorem idsOf_append (A B : List IRecord) : idsOf (A ++ B) = idsOf A ++ idsOf B := by
  simp [idsOf]

theorem idsOf_prefix_bounds {T T2 : List IRecord} {X : List (Option CellValue)}
    (h : idsOf T2 = idsOf T ++ X) :
    T.length ≤ T2.length ∧ ∀ i : Nat, ∀ h1 : i < T.length, ∀ h2 : i < T2.length,
      jsGet (T2.get ⟨i, h2⟩) "id" = jsGet (T.get ⟨i, h1⟩) "id" := by
  have hlen : T2.length = T.length + X.length := by
    have hc := congrArg List.length h
    simpa [idsOf] using hc
  refine ⟨by omega, ?_⟩
  intro i h1 h2
  have k1 : i < (idsOf T).length := by simpa [idsOf] using h1
  have q2 : (idsOf T2)[i]? = some (jsGet (T2.get ⟨i, h2⟩) "id") := by
    simp [idsOf, List.getElem?_map, List.getElem?_eq_getElem, h2]
  have q1 : (idsOf T)[i]? = some (jsGet (T.get ⟨i, h1⟩) "id") := by
    simp [idsOf, List.getElem?_map, List.getElem?_eq_getElem, h1]
  have qa : (idsOf T ++ X)[i]? = (idsOf T)[i]? := by
    rw [List.getElem?_append, if_pos k1]
  rw [h, qa, q1] at q2
  exact (Option.some.inj q2).symm

/-- C8: `syncTable` issues no delete call and, on success, keeps every
existing row: the call trace holds only the fetch, updates, and inserts, the
resulting table is at least as long as the original, and every original row
position keeps its `id`. -/
theorem c8_sync_never_removes (chunkSize : Nat) (tableName : String)
    (T records : List IRecord) (keyColIds : List String)
    (filters : Option IFilterSpec)
    (hw : ∀ r ∈ records, WFRec r) :
    (∀ c ∈ (syncTableRun chunkSize tableName T records keyColIds filters).1,
        isRemove c = false) ∧
    (∀ T2, (syncTableRun chunkSize tableName T records keyColIds filters).2 =
        Except.ok T2 →
      T.length ≤ T2.length ∧ ∀ i : Nat, ∀ h1 : i < T.length, ∀ h2 : i < T2.length,
        jsGet (T2.get ⟨i, h2⟩) "id" = jsGet (T.get ⟨i, h1⟩) "id") := by
  by_cases hpre : syncPrecondOk keyColIds filters = true
  · have hcond : ¬ (!syncPrecondOk keyColIds filters) = true := by simp [hpre]
    cases hur : updateRecordsRun chunkSize tableName T
        (syncStagedOps T records keyColIds filters).1 with
    | mk ucalls ures =>
      cases ures with
      | error e =>
        have hrun : syncTableRun chunkSize tableName T records keyColIds filters =
            (ApiCall.fetch tableName filters :: ucalls, .error e) := by
          unfold syncTableRun
          rw [if_neg hcond]
          simp only [hur]
        rw [hrun]
        constructor
        · intro c hc
          replace hc : c ∈ ApiCall.fetch tableName filters :: ucalls := hc
          rcases List.mem_cons.mp hc with hce | hcm
          · rw [hce]
            rfl
          · have hall := updateRecordsRun_calls chunkSize tableName T
              (syncStagedOps T records keyColIds filters).1 c
            rw [hur] at hall
            exact hall hcm
        · intro T2 hT2
          replace hT2 : (Except.error e : Except String (List IRecord)) =
            Except.ok T2 := hT2
          exact absurd hT2 (by simp)
      | ok T1 =>
        have hrun : syncTableRun chunkSize tableName T records keyColIds filters =
            (ApiCall.fetch tableName filters ::
              (ucalls ++ (addRecordsRun chunkSize tableName T1
                  (syncStagedOps T records keyColIds filters).2).1),
             (addRecordsRun chunkSize tableName T1
                 (syncStagedOps T records keyColIds filters).2).2) := by
          unfold syncTableRun
          rw [if_neg hcond]
          simp only [hur]
        rw [hrun]
        constructor
        · intro c hc
          replace hc : c ∈ ApiCall.fetch tableName filters ::
            (ucalls ++ (addRecordsRun chunkSize tableName T1
                (syncStagedOps T records keyColIds filters).2).1) := hc
          rcases List.mem_cons.mp hc with hce | hcm
          · rw [hce]
            rfl
          · rcases List.mem_append.mp hcm with hm1 | hm2
            · have hall := updateRecordsRun_calls chunkSize tableName T
                (syncStagedOps T records keyColIds filters).1 c
              rw [hur] at hall
              exact hall hm1
            · exact addRecordsRun_calls chunkSize tableName T1
                (syncStagedOps T records keyColIds filters).2 c hm2
        · intro T2 hT2
          obtain ⟨X, hX⟩ := addRecordsRun_snd chunkSize tableName T1
            (syncStagedOps T records keyColIds filters).2
          replace hT2 : (addRecordsRun chunkSize tableName T1
              (syncStagedOps T records keyColIds filters).2).2 = Except.ok T2 := hT2
          rw [hX] at hT2
          have hT2e : T1 ++ X = T2 := Except.ok.inj hT2
          have hwf_upd : ∀ u ∈ (syncStagedOps T records keyColIds filters).1, WFRec u := by
            unfold syncStagedOps
            exact syncPlan_upd_wf _ _ _ _ hw
          have hids1 : idsOf T1 = idsOf T := updateRecordsRun_ids hur hwf_upd
          have hh : idsOf T2 = idsOf T ++ idsOf X := by
            rw [← hT2e, idsOf_append, hids1]
          exact idsOf_prefix_bounds hh
  · have hb : syncPrecondOk keyColIds filters = false := by simpa using hpre
    have hrun : syncTableRun chunkSize tableName T records keyColIds filters =
        ([], .error syncErrMsg) := by
      unfold syncTableRun
      rw [if_pos (by rw [hb]; rfl)]
    rw [hrun]
    constructor
    · intro c hc
      exact absurd hc (List.not_mem_nil c)
    · intro T2 hT2
      replace hT2 : (Except.error syncErrMsg : Except String (List IRecord)) =
        Except.ok T2 := hT2
      exact absurd hT2 (by simp)

/-- C8, witness: syncing one updated record and one new record against a
one-row table issues no delete call. -/
theorem c8_witness :
    (∀ r ∈ [[("Name", some (CellValue.str "eggs")), ("Qty", some (CellValue.num 0))],
            [("Name", some (CellValue.str "milk")), ("Qty", some (CellValue.num 2))]],
      WFRec r) ∧
      (∀ c ∈ (syncTableRun 500 "Table1"
          [[("id", some (CellValue.num 1)), ("Name", some (CellValue.str "eggs")),
            ("Qty", some (CellValue.num 12))]]
          [[("Name", some (CellValue.str "eggs")), ("Qty", some (CellValue.num 0))],
           [("Name", some (CellValue.str "milk")), ("Qty", some (CellValue.num 2))]]
          ["Name"] none).1,
        isRemove c = false) :=
  ⟨by decide,
    (c8_sync_never_removes 500 "Table1"
      [[("id", some (CellValue.num 1)), ("Name", some (CellValue.str "eggs")),
        ("Qty", some (CellValue.num 12))]]
      [[("Name", some (CellValue.str "eggs")), ("Qty", some (CellValue.num 0))],
       [("Name", some (CellValue.str "milk")), ("Qty", some (CellValue.num 2))]]
      ["Name"] none (by decide)).1⟩

/-! ### Claim C1: idempotence of syncTable -/

theorem count_filter_eq {α : Type} [DecidableEq α] (p : α → Bool) (a : α)
    (l : List α) :
    (l.filter p).count a = if p a = true then l.count a else 0 := by
  by_cases hp : p a = true
  · rw [if_pos hp, List.count_filter hp]
  · rw [if_neg hp]
    exact List.count_eq_zero.mpr (fun hmem => hp (List.mem_filter.mp hmem).2)

theorem firstSeenKeys_nodup : ∀ (l : List String), (firstSeenKeys l).Nodup := by
  intro l
  generalize hlen : l.length = N
  induction N using Nat.strong_induction_on generalizing l with
  | _ N ih =>
    cases l with
    | nil => rw [firstSeenKeys_nil]; exact List.nodup_nil
    | cons k ks =>
      rw [firstSeenKeys_cons]
      refine List.nodup_cons.mpr ⟨?_, ?_⟩
      · intro hmem
        have hmem2 := (firstSeenKeys_mem_iff _ _).mp hmem
        have h2 := List.mem_filter.mp hmem2
        simp at h2
      · exact ih (ks.filter (fun x => x != k)).length
          (by
            have := List.length_filter_le (fun x => x != k) ks
            simp only [List.length_cons] at hlen
            omega) _ rfl

theorem flatMap_filter_count {α : Type} [DecidableEq α] (f : α → String) :
    ∀ (keys : List String), keys.Nodup → ∀ (U : List α) (x : α),
      (keys.flatMap (fun k => U.filter (fun r => f r == k))).count x =
        if f x ∈ keys then U.count x else 0 := by
  intro keys
  induction keys with
  | nil => intro _ U x; simp
  | cons k ks ih =>
    intro hnd U x
    rw [List.flatMap_cons, List.count_append, count_filter_eq,
      ih (List.nodup_cons.mp hnd).2 U x]
    by_cases hk : f x = k
    · rw [if_pos (by simpa using hk)]
      have hnotin : ¬ f x ∈ ks := by rw [hk]; exact (List.nodup_cons.mp hnd).1
      rw [if_neg hnotin, if_pos (by rw [hk]; exact List.mem_cons_self k ks)]
      simp
    · rw [if_neg (by simpa using hk)]
      by_cases hmem : f x ∈ ks
      · rw [if_pos hmem, if_pos (List.mem_cons_of_mem k hmem)]
        simp
      · rw [if_neg hmem, if_neg (by simp [List.mem_cons, hk, hmem])]

theorem flatMap_filter_perm {α : Type} [DecidableEq α] (f : α → String)
    (U : List α) :
    List.Perm ((firstSeenKeys (U.map f)).flatMap (fun k => U.filter (fun r => f r == k)))
      U := by
  rw [List.perm_iff_count]
  intro x
  rw [flatMap_filter_count f (firstSeenKeys (U.map f)) (firstSeenKeys_nodup (U.map f)) U x]
  by_cases hm : f x ∈ firstSeenKeys (U.map f)
  · rw [if_pos hm]
  · rw [if_neg hm]
    have hx : ¬ x ∈ U := fun hxU =>
      hm ((firstSeenKeys_mem_iff (U.map f) (f x)).mpr (List.mem_map_of_mem f hxU))
    exact (List.count_eq_zero.mpr hx).symm

theorem flatten_flatMap {α β : Type} (f : α → List (List β)) :
    ∀ l : List α, (l.flatMap f).flatten = l.flatMap (fun x => (f x).flatten) := by
  intro l
  induction l with
  | nil => rfl
  | cons a as ih => simp [List.flatMap_cons, List.flatten_append, ih]

theorem updateGroupsSpec_flatten_perm (chunkSize : Nat) (hcs : 0 < chunkSize)
    (U : List IRecord) :
    List.Perm (updateGroupsSpec chunkSize U).flatten U := by
  unfold updateGroupsSpec
  rw [flatten_flatMap]
  have heach : (fun k => (chunksOf chunkSize (U.filter (fun r => groupKeyStr r == k))).flatten) =
      (fun k => U.filter (fun r => groupKeyStr r == k)) :=
    funext (fun k => chunksOf_flatten chunkSize hcs _)
  rw [heach]
  exact flatMap_filter_perm groupKeyStr U

theorem applySeq_map : ∀ (us : List IRecord) (T : List IRecord),
    applySeq T us = T.map (fun row => us.foldl updRow row) := by
  intro us
  induction us with
  | nil => intro T; simp [applySeq]
  | cons u us ih =>
    intro T
    rw [applySeq_cons, show applyUpd1 T u = T.map (fun row => updRow row u) from rfl,
      ih, List.map_map]
    rfl

theorem foldl_applySeq_flatten : ∀ (chunks : List (List IRecord)) (T : List IRecord),
    chunks.foldl applySeq T = applySeq T chunks.flatten := by
  intro chunks
  induction chunks with
  | nil => intro T; rfl
  | cons c cs ih =>
    intro T
    rw [List.foldl_cons, List.flatten_cons, ih]
    unfold applySeq
    rw [List.foldl_append]

theorem updRow_foldl_no_match : ∀ (us : List IRecord) (row : IRecord),
    (∀ u ∈ us, ¬ jsGet u "id" = jsGet row "id") → us.foldl updRow row = row := by
  intro us
  induction us with
  | nil => intro row _; rfl
  | cons u us ih =>
    intro row h
    rw [List.foldl_cons]
    have hne : ¬ (jsGet row "id" == jsGet u "id") = true := by
      intro hb
      have hb2 : jsGet row "id" = jsGet u "id" := by simpa using hb
      exact h u (List.mem_cons_self u us) hb2.symm
    have hstep : updRow row u = row := by
      unfold updRow
      rw [if_neg hne]
    rw [hstep]
    exact ih row (fun x hx => h x (List.mem_cons_of_mem u hx))

theorem updRow_foldl_single (s t : List IRecord) (u0 row : IRecord)
    (hwfu : WFRec u0) (hid : jsGet u0 "id" = jsGet row "id")
    (hs : ∀ u ∈ s, ¬ jsGet u "id" = jsGet row "id")
    (ht : ∀ u ∈ t, ¬ jsGet u "id" = jsGet row "id") :
    (s ++ u0 :: t).foldl updRow row = overwrite row u0 := by
  rw [List.foldl_append, updRow_foldl_no_match s row hs, List.foldl_cons]
  have hg : (jsGet row "id" == jsGet u0 "id") = true := by simp [hid]
  have hstep : updRow row u0 = overwrite row u0 := by
    unfold updRow
    rw [if_pos hg]
  rw [hstep]
  have hido : jsGet (overwrite row u0) "id" = jsGet row "id" :=
    overwrite_id_of_guard hwfu hid.symm
  exact updRow_foldl_no_match t (overwrite row u0)
    (fun x hx hx2 => ht x hx (hx2.trans hido))

theorem updateRecordsRun_ok_eq {chunkSize : Nat} {tableName : String}
    {T records : List IRecord} {ucalls : List ApiCall} {T1 : List IRecord}
    (h : updateRecordsRun chunkSize tableName T records = (ucalls, .ok T1)) :
    (∀ r ∈ records, validId r = true) ∧
    T1 = (updateGroupsSpec chunkSize records).foldl applySeq T := by
  have hval : ∀ r ∈ records, validId r = true := by
    by_contra hcon
    push_neg at hcon
    obtain ⟨r, hr, hv⟩ := hcon
    unfold updateRecordsRun at h
    rw [updateCallData_error_of_invalid chunkSize records ⟨r, hr, by simpa using hv⟩] at h
    simp at h
  refine ⟨hval, ?_⟩
  unfold updateRecordsRun at h
  rw [updateCallData_ok_of_valid chunkSize records hval] at h
  have hp : ((updateGroupsSpec chunkSize records).map
      (fun recs => ApiCall.update tableName (makeTableData recs)),
      (Except.ok ((updateGroupsSpec chunkSize records).foldl applySeq T) :
        Except String (List IRecord))) = (ucalls, Except.ok T1) := h
  have h2 := congrArg Prod.snd hp
  simpa using h2.symm

theorem addRecordsRun_snd_eq (chunkSize : Nat) (tableName : String)
    (T records : List IRecord) :
    (addRecordsRun chunkSize tableName T records).2 =
      Except.ok (T ++ applyInsFrom (nextId T) records) := by
  unfold addRecordsRun
  by_cases he : records.isEmpty = true
  · rw [if_pos he]
    have hnil : records = [] := by simpa using he
    subst hnil
    simp [applyInsFrom]
  · rw [if_neg he]

theorem buildLookup_foldl_char (kc : List String) :
    ∀ (rows : List IRecord) (acc : List (String × IRecord)),
      (acc.map Prod.fst ++ rows.map (recKey kc)).Nodup →
      rows.foldl (fun m row => mapSet m (recKey kc row) row) acc =
        acc ++ rows.map (fun row => (recKey kc row, row)) := by
  intro rows
  induction rows with
  | nil => intro acc _; simp
  | cons row rows ih =>
    intro acc hnd
    rw [List.foldl_cons]
    have hnotin : ¬ (acc.map Prod.fst).contains (recKey kc row) = true := by
      intro hc
      have hmem : recKey kc row ∈ acc.map Prod.fst := by simpa using hc
      have hdisj := (List.nodup_append.mp hnd).2.2
      exact hdisj hmem (by simp)
    have hset : mapSet acc (recKey kc row) row = acc ++ [(recKey kc row, row)] := by
      unfold mapSet
      rw [if_neg hnotin]
    have hnd2 : ((acc ++ [(recKey kc row, row)]).map Prod.fst ++
        rows.map (recKey kc)).Nodup := by
      rw [List.map_append]
      rw [List.map_cons, List.append_cons] at hnd
      simpa using hnd
    rw [hset, ih (acc ++ [(recKey kc row, row)]) hnd2, List.append_assoc]
    simp

theorem buildLookup_eq_map {kc : List String} {rows : List IRecord}
    (hnd : (rows.map (recKey kc)).Nodup) :
    buildLookup kc rows = rows.map (fun row => (recKey kc row, row)) := by
  unfold buildLookup
  rw [buildLookup_foldl_char kc rows [] (by simpa using hnd)]
  rfl

theorem alistGet_map_key (kc : List String) (k : String) :
    ∀ rows : List IRecord,
      alistGet (rows.map (fun row => (recKey kc row, row))) k =
        rows.find? (fun row => recKey kc row == k) := by
  intro rows
  induction rows with
  | nil => rfl
  | cons row rows ih =>
    rw [List.map_cons]
    by_cases h : recKey kc row = k
    · rw [alistGet_cons_eq h, List.find?_cons_of_pos _ (by simpa using h)]
    · have hne : ¬ (recKey kc row, row).1 = k := h
      rw [alistGet_cons_ne hne, List.find?_cons_of_neg _ (by simpa using h), ih]

theorem mapGet_buildLookup {kc : List String} {rows : List IRecord}
    (hnd : (rows.map (recKey kc)).Nodup) (k : String) :
    mapGet (buildLookup kc rows) k = rows.find? (fun row => recKey kc row == k) := by
  unfold mapGet
  rw [buildLookup_eq_map hnd, alistGet_map_key]

theorem mapGet_some_props {kc : List String} {rows : List IRecord} {k : String}
    {v : IRecord} (hnd : (rows.map (recKey kc)).Nodup)
    (h : mapGet (buildLookup kc rows) k = some v) :
    v ∈ rows ∧ recKey kc v = k := by
  rw [mapGet_buildLookup hnd] at h
  have hmem := List.mem_of_find?_eq_some h
  have hp := List.find?_some h
  exact ⟨hmem, by simpa using hp⟩

theorem find?_eq_some_unique {α : Type} (f : α → String) (k : String) :
    ∀ (rows : List α), (rows.map f).Nodup → ∀ row ∈ rows, f row = k →
      rows.find? (fun x => f x == k) = some row := by
  intro rows
  induction rows with
  | nil => intro _ row hrow _; exact absurd hrow (List.not_mem_nil row)
  | cons a as ih =>
    intro hnd row hrow hk
    by_cases ha : f a = k
    · rw [List.find?_cons_of_pos _ (by simpa using ha)]
      rcases List.mem_cons.mp hrow with he | hmem
      · rw [he]
      · have hae : a = row := List.inj_on_of_nodup_map hnd
          (List.mem_cons_self a as) (List.mem_cons_of_mem a hmem) (ha.trans hk.symm)
        rw [hae]
    · rw [List.find?_cons_of_neg _ (by simpa using ha)]
      rcases List.mem_cons.mp hrow with he | hmem
      · exact absurd (he ▸ hk) ha
      · have hnd2 : (as.map f).Nodup := by
          rw [List.map_cons, List.nodup_cons] at hnd
          exact hnd.2
        exact ih hnd2 row hmem hk

theorem nodup_filterMap_of_inj_on {α β : Type} (f : α → Option β) :
    ∀ l : List α, l.Nodup →
      (∀ a ∈ l, ∀ a2 ∈ l, ∀ b, f a = some b → f a2 = some b → a = a2) →
      (l.filterMap f).Nodup := by
  intro l
  induction l with
  | nil => intro _ _; simp
  | cons a as ih =>
    intro hnd hinj
    rw [List.filterMap_cons]
    have hnd2 := List.nodup_cons.mp hnd
    cases hc : f a with
    | none =>
      exact ih hnd2.2 (fun x hx y hy b hb1 hb2 =>
        hinj x (List.mem_cons_of_mem a hx) y (List.mem_cons_of_mem a hy) b hb1 hb2)
    | some b =>
      refine List.nodup_cons.mpr ⟨?_, ?_⟩
      · intro hmem
        obtain ⟨a2, ha2, hb2⟩ := List.mem_filterMap.mp hmem
        have hae : a = a2 := hinj a (List.mem_cons_self a as)
          a2 (List.mem_cons_of_mem a ha2) b hc hb2
        rw [hae] at hnd2
        exact hnd2.1 ha2
      · exact ih hnd2.2 (fun x hx y hy b2 hb1 hb2 =>
          hinj x (List.mem_cons_of_mem a hx) y (List.mem_cons_of_mem a hy) b2 hb1 hb2)

theorem updComp_eq_some {L : List (String × IRecord)} {kc : List String}
    {fs : Option IFilterSpec} {r u : IRecord}
    (h : updComp L kc fs r = some u) :
    (∀ f, fs = some f → filterMatches r f = true) ∧
    ∃ old, mapGet L (recKey kc r) = some old ∧
      ¬ (changedKeysOf r old).isEmpty = true ∧ u = mkUpdate r old := by
  unfold updComp at h
  split at h
  next hg => exact absurd h (by simp)
  next hg =>
    refine ⟨?_, ?_⟩
    · intro f hf
      rw [hf] at hg
      simpa [filteredOut] using hg
    · split at h
      next old hm =>
        split at h
        next he => exact absurd h (by simp)
        next he => exact ⟨old, hm, he, (Option.some.inj h).symm⟩
      next hm => exact absurd h (by simp)

theorem insComp_eq_some {L : List (String × IRecord)} {kc : List String}
    {fs : Option IFilterSpec} {r u : IRecord}
    (h : insComp L kc fs r = some u) :
    (∀ f, fs = some f → filterMatches r f = true) ∧
    mapGet L (recKey kc r) = none ∧ u = r := by
  unfold insComp at h
  split at h
  next hg => exact absurd h (by simp)
  next hg =>
    refine ⟨?_, ?_⟩
    · intro f hf
      rw [hf] at hg
      simpa [filteredOut] using hg
    · split at h
      next old hm => exact absurd h (by simp)
      next hm => exact ⟨hm, (Option.some.inj h).symm⟩

theorem updComp_none_of_nochange {L : List (String × IRecord)} {kc : List String}
    {fs : Option IFilterSpec} {r row2 : IRecord}
    (hm : mapGet L (recKey kc r) = some row2)
    (he : (changedKeysOf r row2).isEmpty = true) :
    updComp L kc fs r = none := by
  unfold updComp
  split
  · rfl
  · rw [hm]
    simp [he]

theorem insComp_none_of_match {L : List (String × IRecord)} {kc : List String}
    {fs : Option IFilterSpec} {r row2 : IRecord}
    (hm : mapGet L (recKey kc r) = some row2) :
    insComp L kc fs r = none := by
  unfold insComp
  split
  · rfl
  · rw [hm]

theorem mkUpdate_id (newRec oldRec : IRecord) :
    jsGet (mkUpdate newRec oldRec) "id" = jsGet oldRec "id" := by
  unfold mkUpdate
  rw [jsGet_rsetV]
  simp

theorem recLookup_mkUpdate_ne_id {newRec oldRec : IRecord} {c : String}
    (hc : ¬ c = "id") :
    recLookup (mkUpdate newRec oldRec) c =
      if c ∈ changedKeysOf newRec oldRec then recLookup newRec c else none := by
  unfold mkUpdate
  rw [recLookup_rsetV, if_neg hc, recLookup_pick]

theorem serverMatches_of_filterMatches {r : IRecord} {fs : IFilterSpec}
    (h : filterMatches r fs = true) : serverMatches r fs = true := by
  unfold filterMatches at h
  unfold serverMatches
  rw [List.all_eq_true] at h ⊢
  intro p hp
  have hincl := h p hp
  unfold jsIncludes at hincl
  rw [List.any_eq_true] at hincl
  obtain ⟨v, hv, hveq⟩ := hincl
  cases hx : jsGet r p.1 with
  | none =>
    rw [hx] at hveq
    exact absurd hveq (by simp [jsValEq])
  | some w =>
    rw [hx] at hveq
    have hEq : v = w ∧ isPrim v = true := jsStrictEq_eq (by simpa [jsValEq] using hveq)
    show p.2.contains w = true
    rw [← hEq.1]
    exact List.elem_iff.mpr hv

theorem primValued_jsGet {r : IRecord} (h : primValued r = true) (k : String) :
    ∀ v, jsGet r k = some v → isPrim v = true := by
  intro v hv
  unfold jsGet at hv
  cases hl : recLookup r k with
  | none =>
    rw [hl] at hv
    exact Option.noConfusion hv
  | some w =>
    rw [hl] at hv
    have hw : w = some v := by simpa using hv
    have hmem : (k, w) ∈ r := alistGet_mem hl
    unfold primValued at h
    rw [List.all_eq_true] at h
    have hpw := h (k, w) hmem
    rw [hw] at hpw
    simpa using hpw

theorem all_congr_mem {α : Type} {p q : α → Bool} :
    ∀ l : List α, (∀ a ∈ l, p a = q a) → l.all p = l.all q := by
  intro l
  induction l with
  | nil => intro _; rfl
  | cons x xs ih =>
    intro h
    rw [List.all_cons, List.all_cons, h x (List.mem_cons_self x xs),
      ih (fun a ha => h a (List.mem_cons_of_mem x ha))]

theorem serverMatches_congr (kc : List String) {fs : IFilterSpec} {r1 r2 : IRecord}
    (hsub : ∀ p ∈ fs, p.1 ∈ kc)
    (h : ∀ c ∈ kc, undefToNull (jsGet r1 c) = undefToNull (jsGet r2 c)) :
    serverMatches r1 fs = serverMatches r2 fs := by
  unfold serverMatches
  apply all_congr_mem
  intro p hp
  rw [h p.1 (hsub p hp)]

theorem syncPrecond_sub {kc : List String} {fs : IFilterSpec}
    (h : syncPrecondOk kc (some fs) = true) : ∀ p ∈ fs, p.1 ∈ kc := by
  unfold syncPrecondOk at h
  rw [List.all_eq_true] at h
  intro p hp
  have hc := h p.1 (List.mem_map_of_mem Prod.fst hp)
  simpa using hc

theorem serverFetch_append (A B : List IRecord) (fs : Option IFilterSpec) :
    serverFetch (A ++ B) fs = serverFetch A fs ++ serverFetch B fs := by
  unfold serverFetch
  cases fs with
  | none => rfl
  | some f =>
    show (A ++ B).filter (fun row => serverMatches row f) =
      A.filter (fun row => serverMatches row f) ++
        B.filter (fun row => serverMatches row f)
    rw [List.filter_append]

theorem serverFetch_map_of_pres {T : List IRecord} {g : IRecord → IRecord}
    {fs : Option IFilterSpec}
    (h : ∀ row ∈ T, ∀ f, fs = some f → serverMatches (g row) f = serverMatches row f) :
    serverFetch (T.map g) fs = (serverFetch T fs).map g := by
  unfold serverFetch
  cases hf : fs with
  | none => rfl
  | some f =>
    show (T.map g).filter (fun row => serverMatches row f) =
      (T.filter (fun row => serverMatches row f)).map g
    rw [List.filter_map]
    congr 1
    apply List.filter_congr
    intro row hrow
    simp only [Function.comp_apply]
    exact h row hrow f hf

theorem serverFetch_sublist (T : List IRecord) (fs : Option IFilterSpec) :
    List.Sublist (serverFetch T fs) T := by
  unfold serverFetch
  cases fs with
  | none => exact List.Sublist.refl T
  | some f => exact List.filter_sublist T

theorem recKey_congr {kc : List String} {r1 r2 : IRecord}
    (h : ∀ c ∈ kc, undefToNull (jsGet r1 c) = undefToNull (jsGet r2 c)) :
    recKey kc r1 = recKey kc r2 := by
  rw [recKey_eq_iff]
  exact List.map_congr_left h

theorem recKey_rsetV_id {kc : List String} (hid : ¬ "id" ∈ kc) (r : IRecord)
    (v : Option CellValue) :
    recKey kc (rsetV r "id" v) = recKey kc r := by
  apply recKey_congr
  intro c hc
  have hne : ¬ c = "id" := fun he => hid (by rw [← he]; exact hc)
  rw [jsGet_rsetV, if_neg hne]

theorem map_eq_map_mem {α β : Type} {f g : α → β} :
    ∀ l : List α, l.map f = l.map g → ∀ a ∈ l, f a = g a := by
  intro l
  induction l with
  | nil => intro _ a ha; exact absurd ha (List.not_mem_nil a)
  | cons x xs ih =>
    intro h a ha
    rw [List.map_cons, List.map_cons, List.cons_eq_cons] at h
    rcases List.mem_cons.mp ha with he | hmem
    · rw [he]
      exact h.1
    · exact ih h.2 a hmem

theorem applyInsFrom_mem : ∀ (I : List IRecord) (nid : Int) (x : IRecord),
    x ∈ applyInsFrom nid I →
    ∃ r ∈ I, ∃ n : Int, x = rsetV r "id" (some (.num n)) := by
  intro I
  induction I with
  | nil => intro nid x hx; exact absurd hx (List.not_mem_nil x)
  | cons a as ih =>
    intro nid x hx
    rcases List.mem_cons.mp hx with he | hmem
    · exact ⟨a, List.mem_cons_self a as, nid, he⟩
    · obtain ⟨r, hr, n, hn⟩ := ih (nid + 1) x hmem
      exact ⟨r, List.mem_cons_of_mem a hr, n, hn⟩

theorem applyInsFrom_mem_of_mem : ∀ (I : List IRecord) (nid : Int) (r : IRecord),
    r ∈ I → ∃ n : Int, rsetV r "id" (some (.num n)) ∈ applyInsFrom nid I := by
  intro I
  induction I with
  | nil => intro nid r hr; exact absurd hr (List.not_mem_nil r)
  | cons a as ih =>
    intro nid r hr
    rcases List.mem_cons.mp hr with he | hmem
    · refine ⟨nid, ?_⟩
      rw [he]
      exact List.mem_cons_self _ _
    · obtain ⟨n, hn⟩ := ih (nid + 1) r hmem
      exact ⟨n, List.mem_cons_of_mem _ hn⟩

theorem applyInsFrom_keys (kc : List String) (hid : ¬ "id" ∈ kc) :
    ∀ (I : List IRecord) (nid : Int),
      (applyInsFrom nid I).map (recKey kc) = I.map (recKey kc) := by
  intro I
  induction I with
  | nil => intro nid; rfl
  | cons a as ih =>
    intro nid
    show recKey kc (rsetV a "id" (some (.num nid))) ::
        (applyInsFrom (nid + 1) as).map (recKey kc) = recKey kc a :: as.map (recKey kc)
    rw [ih, recKey_rsetV_id hid]

theorem filterMap_insComp_sublist (L : List (String × IRecord)) (kc : List String)
    (fs : Option IFilterSpec) :
    ∀ records : List IRecord,
      List.Sublist (records.filterMap (insComp L kc fs)) records := by
  intro records
  induction records with
  | nil => simp
  | cons r rs ih =>
    rw [List.filterMap_cons]
    cases hc : insComp L kc fs r with
    | none => exact ih.cons r
    | some u =>
      have hur : u = r := (insComp_eq_some hc).2.2
      rw [hur]
      exact ih.cons₂ r

theorem guard_false_of_pass (filters : Option IFilterSpec) (r : IRecord) :
    (∀ f, filters = some f → filterMatches r f = true) →
    ¬ filteredOut filters r = true := by
  cases filters with
  | none =>
    intro _
    simp [filteredOut]
  | some f =>
    intro hpass
    simp [filteredOut, hpass f rfl]

theorem mem_serverFetch_of_matches {row : IRecord} {rows : List IRecord}
    (filters : Option IFilterSpec) (hmem : row ∈ rows) :
    (∀ f, filters = some f → serverMatches row f = true) →
    row ∈ serverFetch rows filters := by
  cases filters with
  | none =>
    intro _
    exact hmem
  | some f =>
    intro h
    show row ∈ rows.filter (fun x => serverMatches x f)
    exact List.mem_filter.mpr ⟨hmem, h f rfl⟩

theorem not_changed_of_mem_not_mem {r old : IRecord} {c : String}
    (hc : c ∈ rkeys r) (hnc : ¬ c ∈ changedKeysOf r old) :
    jsValEq (jsGet r c) (jsGet old c) = true := by
  by_cases h : jsNe (jsGet r c) (jsGet old c) = true
  · exact absurd (List.mem_filter.mpr ⟨hc, h⟩) hnc
  · unfold jsNe at h
    simpa using h

/-- C1 (amended): `syncTable` is idempotent under well-formedness conditions:
the records have nodup keys, only primitive values, no `id` column of their
own, and pairwise-distinct serialized key tuples; `id` is not a key column;
the filter precondition holds; the chunk size is positive; and the table
rows have pairwise-distinct ids and pairwise-distinct serialized key tuples.
Then whenever the first run succeeds, a second run against the resulting
table state stages zero updates and zero inserts. -/
theorem c1_sync_idempotent (chunkSize : Nat) (tableName : String)
    (T records : List IRecord) (keyColIds : List String)
    (filters : Option IFilterSpec)
    (hcs : 0 < chunkSize)
    (hpre : syncPrecondOk keyColIds filters = true)
    (hwf : ∀ r ∈ records, WFRec r)
    (hprim : ∀ r ∈ records, primValued r = true)
    (hnoid : ∀ r ∈ records, ¬ "id" ∈ rkeys r)
    (hrkeys : (records.map (recKey keyColIds)).Nodup)
    (hidnk : ¬ "id" ∈ keyColIds)
    (hTids : (idsOf T).Nodup)
    (hTkeys : (T.map (recKey keyColIds)).Nodup) :
    ∀ T2, (syncTableRun chunkSize tableName T records keyColIds filters).2 =
        Except.ok T2 →
      syncStagedOps T2 records keyColIds filters = ([], []) := by
  intro T2 hT2
  have hprecond : ¬ (!syncPrecondOk keyColIds filters) = true := by simp [hpre]
  cases hur : updateRecordsRun chunkSize tableName T
      (syncStagedOps T records keyColIds filters).1 with
  | mk ucalls ures =>
    cases ures with
    | error e =>
      have hrun : (syncTableRun chunkSize tableName T records keyColIds filters).2 =
          Except.error e := by
        unfold syncTableRun
        rw [if_neg hprecond]
        simp only [hur]
      rw [hrun] at hT2
      exact absurd hT2 (by simp)
    | ok T1 =>
      have hrun : (syncTableRun chunkSize tableName T records keyColIds filters).2 =
          (addRecordsRun chunkSize tableName T1
              (syncStagedOps T records keyColIds filters).2).2 := by
        unfold syncTableRun
        rw [if_neg hprecond]
        simp only [hur]
      rw [hrun, addRecordsRun_snd_eq] at hT2
      have hT2e : T2 = T1 ++ applyInsFrom (nextId T1)
          (syncStagedOps T records keyColIds filters).2 := (Except.ok.inj hT2).symm
      set F := serverFetch T filters with hFdef
      set L := buildLookup keyColIds F with hLdef
      have hstag : syncStagedOps T records keyColIds filters =
          (records.filterMap (updComp L keyColIds filters),
           records.filterMap (insComp L keyColIds filters)) := by
        rw [hLdef, hFdef]
        unfold syncStagedOps
        exact syncPlan_eq_filterMap _ _ _ _
      rw [hstag] at hur hT2e
      set U := records.filterMap (updComp L keyColIds filters) with hUdef
      set I := records.filterMap (insComp L keyColIds filters) with hIdef
      have hur2 : updateRecordsRun chunkSize tableName T U = (ucalls, Except.ok T1) := hur
      have hT2x : T2 = T1 ++ applyInsFrom (nextId T1) I := hT2e
      obtain ⟨hval, hT1⟩ := updateRecordsRun_ok_eq hur2
      rw [foldl_applySeq_flatten, applySeq_map] at hT1
      set P := (updateGroupsSpec chunkSize U).flatten with hPdef
      -- basic injectivity and lookup facts
      have hFsub : List.Sublist F T := serverFetch_sublist T filters
      have hFkeys : (F.map (recKey keyColIds)).Nodup :=
        (hFsub.map (recKey keyColIds)).nodup hTkeys
      have hLfind : ∀ k, mapGet L k =
          F.find? (fun row => recKey keyColIds row == k) := by
        rw [hLdef]
        exact fun k => mapGet_buildLookup hFkeys k
      have hLprops : ∀ k v, mapGet L k = some v → v ∈ F ∧ recKey keyColIds v = k := by
        rw [hLdef]
        exact fun k v h => mapGet_some_props hFkeys h
      have hidinj : ∀ v ∈ T, ∀ w ∈ T, jsGet v "id" = jsGet w "id" → v = w := by
        have hnd : (T.map (fun row => jsGet row "id")).Nodup := hTids
        exact fun v hv w hw hid => List.inj_on_of_nodup_map hnd hv hw hid
      have hrecinj : ∀ a ∈ records, ∀ b ∈ records,
          recKey keyColIds a = recKey keyColIds b → a = b :=
        fun a ha b hb hab => List.inj_on_of_nodup_map hrkeys ha hb hab
      -- shape of staged updates
      have hUshape : ∀ u ∈ U,
          ∃ r ∈ records, (∀ f, filters = some f → filterMatches r f = true) ∧
            ∃ old, mapGet L (recKey keyColIds r) = some old ∧
              ¬ (changedKeysOf r old).isEmpty = true ∧ u = mkUpdate r old := by
        intro u hu
        obtain ⟨r, hr, hcomp⟩ := List.mem_filterMap.mp hu
        obtain ⟨hpass, old, hm, hch, hueq⟩ := updComp_eq_some hcomp
        exact ⟨r, hr, hpass, old, hm, hch, hueq⟩
      have hUwf : ∀ u ∈ U, WFRec u := by
        intro u hu
        obtain ⟨r, hr, -, old, -, -, hueq⟩ := hUshape u hu
        rw [hueq]
        exact mkUpdate_wf (hwf r hr)
      have hUidinj : ∀ u1 ∈ U, ∀ u2 ∈ U,
          jsGet u1 "id" = jsGet u2 "id" → u1 = u2 := by
        intro u1 hu1 u2 hu2 hid
        obtain ⟨r1, hr1, -, old1, hm1, -, he1⟩ := hUshape u1 hu1
        obtain ⟨r2, hr2, -, old2, hm2, -, he2⟩ := hUshape u2 hu2
        obtain ⟨hoF1, hok1⟩ := hLprops _ _ hm1
        obtain ⟨hoF2, hok2⟩ := hLprops _ _ hm2
        have hidold : jsGet old1 "id" = jsGet old2 "id" := by
          have e1 : jsGet u1 "id" = jsGet old1 "id" := by
            rw [he1]
            exact mkUpdate_id r1 old1
          have e2 : jsGet u2 "id" = jsGet old2 "id" := by
            rw [he2]
            exact mkUpdate_id r2 old2
          rw [← e1, ← e2, hid]
        have holdeq : old1 = old2 :=
          hidinj old1 (hFsub.subset hoF1) old2 (hFsub.subset hoF2) hidold
        have hre : r1 = r2 := hrecinj r1 hr1 r2 hr2 (by rw [← hok1, ← hok2, holdeq])
        rw [he1, he2, hre, holdeq]
      have hrecnd : records.Nodup := List.Nodup.of_map (recKey keyColIds) hrkeys
      have hUnd : U.Nodup := by
        rw [hUdef]
        apply nodup_filterMap_of_inj_on _ records hrecnd
        intro a ha b hb u hfa hfb
        obtain ⟨-, olda, hma, -, hea⟩ := updComp_eq_some hfa
        obtain ⟨-, oldb, hmb, -, heb⟩ := updComp_eq_some hfb
        obtain ⟨hoFa, hoka⟩ := hLprops _ _ hma
        obtain ⟨hoFb, hokb⟩ := hLprops _ _ hmb
        have hia : jsGet u "id" = jsGet olda "id" := by
          rw [hea]
          exact mkUpdate_id a olda
        have hib : jsGet u "id" = jsGet oldb "id" := by
          rw [heb]
          exact mkUpdate_id b oldb
        have holdeq : olda = oldb :=
          hidinj olda (hFsub.subset hoFa) oldb (hFsub.subset hoFb) (hia.symm.trans hib)
        exact hrecinj a ha b hb (by rw [← hoka, ← hokb, holdeq])
      have hPerm : List.Perm P U := updateGroupsSpec_flatten_perm chunkSize hcs U
      have hPmem : ∀ u, u ∈ P ↔ u ∈ U := fun u => hPerm.mem_iff
      -- the effect of the applied updates on each table row
      have hgrow : ∀ row ∈ T,
          (P.foldl updRow row = row ∧ ∀ u ∈ U, ¬ jsGet u "id" = jsGet row "id") ∨
          (∃ r ∈ records, (∀ f, filters = some f → filterMatches r f = true) ∧
            mapGet L (recKey keyColIds r) = some row ∧
            ¬ (changedKeysOf r row).isEmpty = true ∧
            P.foldl updRow row = overwrite row (mkUpdate r row)) := by
        intro row hrow
        by_cases hex : ∃ u ∈ U, jsGet u "id" = jsGet row "id"
        · right
          obtain ⟨u0, hu0, hid0⟩ := hex
          obtain ⟨r, hr, hpass, old, hm, hch, hueq⟩ := hUshape u0 hu0
          obtain ⟨hoF, hok⟩ := hLprops _ _ hm
          have hidold : jsGet old "id" = jsGet row "id" := by
            have e1 : jsGet u0 "id" = jsGet old "id" := by
              rw [hueq]
              exact mkUpdate_id r old
            rw [← e1, hid0]
          have holdrow : old = row := hidinj old (hFsub.subset hoF) row hrow hidold
          refine ⟨r, hr, hpass, ?_, ?_, ?_⟩
          · rw [← holdrow]
            exact hm
          · rw [← holdrow]
            exact hch
          · have hPnd : P.Nodup := hPerm.nodup_iff.mpr hUnd
            obtain ⟨s, t, hPst⟩ := List.append_of_mem ((hPmem u0).mpr hu0)
            have hnd2 : (s ++ u0 :: t).Nodup := hPst ▸ hPnd
            have hs0 : ¬ u0 ∈ s := by
              have hdis := (List.nodup_append.mp hnd2).2.2
              intro hmem
              exact hdis hmem (List.mem_cons_self u0 t)
            have ht0 : ¬ u0 ∈ t := by
              have hct := (List.nodup_append.mp hnd2).2.1
              exact (List.nodup_cons.mp hct).1
            have hsno : ∀ u ∈ s, ¬ jsGet u "id" = jsGet row "id" := by
              intro u hu hidu
              have huU : u ∈ U := (hPmem u).mp
                (by rw [hPst]; exact List.mem_append_left _ hu)
              have hueq0 : u = u0 := hUidinj u huU u0 hu0 (by rw [hidu, hid0])
              rw [hueq0] at hu
              exact hs0 hu
            have htno : ∀ u ∈ t, ¬ jsGet u "id" = jsGet row "id" := by
              intro u hu hidu
              have huU : u ∈ U := (hPmem u).mp
                (by rw [hPst]; exact List.mem_append_right _ (List.mem_cons_of_mem _ hu))
              have hueq0 : u = u0 := hUidinj u huU u0 hu0 (by rw [hidu, hid0])
              rw [hueq0] at hu
              exact ht0 hu
            rw [hPst, updRow_foldl_single s t u0 row (hUwf u0 hu0) hid0 hsno htno,
              hueq, holdrow]
        · left
          push_neg at hex
          refine ⟨?_, hex⟩
          apply updRow_foldl_no_match
          intro u hu
          exact hex u ((hPmem u).mp hu)
      -- key-column projections survive the update pass
      have hcols : ∀ row ∈ T, ∀ c ∈ keyColIds,
          undefToNull (jsGet (P.foldl updRow row) c) = undefToNull (jsGet row c) := by
        intro row hrow c hc
        rcases hgrow row hrow with ⟨hfix, -⟩ | ⟨r, hr, -, hm, -, hfold⟩
        · rw [hfix]
        · rw [hfold]
          have hwfu : WFRec (mkUpdate r row) := mkUpdate_wf (hwf r hr)
          rw [jsGet_overwrite (mkUpdate r row) hwfu row c]
          have hcne : ¬ c = "id" := fun he => hidnk (by rw [← he]; exact hc)
          rw [recLookup_mkUpdate_ne_id hcne]
          by_cases hck : c ∈ changedKeysOf r row
          · rw [if_pos hck]
            have hcr : c ∈ rkeys r := (List.mem_filter.mp hck).1
            have hsome : (recLookup r c).isSome = true := alistGet_isSome_of_mem hcr
            obtain ⟨v, hv⟩ := Option.isSome_iff_exists.mp hsome
            rw [hv]
            show undefToNull v = undefToNull (jsGet row c)
            have hok := (hLprops _ _ hm).2
            have hmapeq := (recKey_eq_iff keyColIds r row).mp hok.symm
            have hcc := map_eq_map_mem keyColIds hmapeq c hc
            have hjv : jsGet r c = v := by
              unfold jsGet
              rw [hv]
              rfl
            rw [← hjv]
            exact hcc
          · rw [if_neg hck]
            rfl
      -- the fetch of the updated table
      have hpres : ∀ row ∈ T, ∀ f, filters = some f →
          serverMatches (P.foldl updRow row) f = serverMatches row f := by
        intro row hrow f hf
        apply serverMatches_congr keyColIds
        · intro p hp
          have hpre2 : syncPrecondOk keyColIds (some f) = true := by
            rw [← hf]
            exact hpre
          exact syncPrecond_sub hpre2 p hp
        · exact hcols row hrow
      have hT1fetch : serverFetch T1 filters =
          F.map (fun row => P.foldl updRow row) := by
        rw [hT1, hFdef]
        exact serverFetch_map_of_pres hpres
      have hFmapkeys : ((F.map (fun row => P.foldl updRow row)).map
          (recKey keyColIds)) = F.map (recKey keyColIds) := by
        rw [List.map_map]
        apply List.map_congr_left
        intro row hrowF
        exact recKey_congr (hcols row (hFsub.subset hrowF))
      have hInsKeys : (applyInsFrom (nextId T1) I).map (recKey keyColIds) =
          I.map (recKey keyColIds) := applyInsFrom_keys keyColIds hidnk I (nextId T1)
      have hIkeysnd : (I.map (recKey keyColIds)).Nodup := by
        rw [hIdef]
        exact ((filterMap_insComp_sublist L keyColIds filters records).map
          (recKey keyColIds)).nodup hrkeys
      have hdisj : ∀ k, k ∈ F.map (recKey keyColIds) →
          k ∈ I.map (recKey keyColIds) → False := by
        intro k hkF hkI
        obtain ⟨rI, hrI, hkeq⟩ := List.mem_map.mp hkI
        have hrI2 : rI ∈ records.filterMap (insComp L keyColIds filters) := hrI
        obtain ⟨rr, hrr, hcomp⟩ := List.mem_filterMap.mp hrI2
        obtain ⟨-, hmnone, hre⟩ := insComp_eq_some hcomp
        rw [hLfind] at hmnone
        have hnone := List.find?_eq_none.mp hmnone
        obtain ⟨x, hxF, hxk⟩ := List.mem_map.mp hkF
        apply hnone x hxF
        have hkk : recKey keyColIds rI = recKey keyColIds rr := by rw [hre]
        rw [hxk, ← hkeq, hkk]
        exact beq_self_eq_true _
      set F2 := serverFetch T2 filters with hF2def
      have hF2eq : F2 = F.map (fun row => P.foldl updRow row) ++
          serverFetch (applyInsFrom (nextId T1) I) filters := by
        rw [hF2def, hT2x, serverFetch_append, hT1fetch, hFdef]
      have hInsFetchSub : List.Sublist
          ((serverFetch (applyInsFrom (nextId T1) I) filters).map (recKey keyColIds))
          (I.map (recKey keyColIds)) := by
        rw [← hInsKeys]
        exact (serverFetch_sublist _ filters).map _
      have hF2keys : (F2.map (recKey keyColIds)).Nodup := by
        rw [hF2eq, List.map_append, hFmapkeys, List.nodup_append]
        refine ⟨hFkeys, hInsFetchSub.nodup hIkeysnd, ?_⟩
        intro k hk1 hk2
        exact hdisj k hk1 (hInsFetchSub.subset hk2)
      have hL2 : ∀ k, mapGet (buildLookup keyColIds F2) k =
          F2.find? (fun row => recKey keyColIds row == k) :=
        fun k => mapGet_buildLookup hF2keys k
      -- the second run finds every record unchanged
      have hcore : ∀ r ∈ records, (∀ f, filters = some f → filterMatches r f = true) →
          ∃ row2, mapGet (buildLookup keyColIds F2) (recKey keyColIds r) = some row2 ∧
            (changedKeysOf r row2).isEmpty = true := by
        intro r hr hpass
        cases hm1 : mapGet L (recKey keyColIds r) with
        | some old =>
          obtain ⟨holdF, holdk⟩ := hLprops _ _ hm1
          have holdT : old ∈ T := hFsub.subset holdF
          by_cases hch : (changedKeysOf r old).isEmpty = true
          · -- matched with no changes: the row is untouched
            have hfix : P.foldl updRow old = old := by
              rcases hgrow old holdT with ⟨hfix, -⟩ | ⟨r2, hr2, -, hm2, hch2, -⟩
              · exact hfix
              · exfalso
                have hok2 := (hLprops _ _ hm2).2
                have hre : r2 = r := hrecinj r2 hr2 r hr (by rw [← hok2, holdk])
                rw [hre] at hch2
                exact hch2 hch
            refine ⟨old, ?_, hch⟩
            rw [hL2]
            refine find?_eq_some_unique (recKey keyColIds) (recKey keyColIds r)
              F2 hF2keys old ?_ holdk
            rw [hF2eq]
            apply List.mem_append_left
            exact List.mem_map.mpr ⟨old, holdF, hfix⟩
          · -- matched with changes: the row was overwritten with the diff
            have hgneg := guard_false_of_pass filters r hpass
            have hcomp : updComp L keyColIds filters r = some (mkUpdate r old) := by
              unfold updComp
              rw [if_neg hgneg, hm1]
              simp [hch]
            have hu0U : mkUpdate r old ∈ U := by
              rw [hUdef]
              exact List.mem_filterMap.mpr ⟨r, hr, hcomp⟩
            rcases hgrow old holdT with ⟨-, hnomatch⟩ | ⟨r2, hr2, -, hm2, -, hfold⟩
            · exfalso
              exact hnomatch (mkUpdate r old) hu0U (mkUpdate_id r old)
            · have hok2 := (hLprops _ _ hm2).2
              have hre : r2 = r := hrecinj r2 hr2 r hr (by rw [← hok2, holdk])
              rw [hre] at hfold
              refine ⟨overwrite old (mkUpdate r old), ?_, ?_⟩
              · rw [hL2]
                refine find?_eq_some_unique (recKey keyColIds) (recKey keyColIds r)
                  F2 hF2keys (overwrite old (mkUpdate r old)) ?_ ?_
                · rw [hF2eq]
                  apply List.mem_append_left
                  exact List.mem_map.mpr ⟨old, holdF, hfold⟩
                · have h1 : recKey keyColIds (overwrite old (mkUpdate r old)) =
                      recKey keyColIds old := by
                    rw [← hfold]
                    exact recKey_congr (hcols old holdT)
                  rw [h1, holdk]
              · have hempty : changedKeysOf r (overwrite old (mkUpdate r old)) = [] := by
                  unfold changedKeysOf
                  rw [List.filter_eq_nil_iff]
                  intro c hcr
                  have hcne : ¬ c = "id" := fun he => hnoid r hr (by rw [← he]; exact hcr)
                  have hwfu : WFRec (mkUpdate r old) := mkUpdate_wf (hwf r hr)
                  have hov : jsGet (overwrite old (mkUpdate r old)) c =
                      (if c ∈ changedKeysOf r old then recLookup r c else none).getD
                        (jsGet old c) := by
                    rw [jsGet_overwrite (mkUpdate r old) hwfu old c,
                      recLookup_mkUpdate_ne_id hcne]
                  by_cases hck : c ∈ changedKeysOf r old
                  · rw [if_pos hck] at hov
                    have hsome : (recLookup r c).isSome = true :=
                      alistGet_isSome_of_mem hcr
                    obtain ⟨v, hv⟩ := Option.isSome_iff_exists.mp hsome
                    rw [hv] at hov
                    have hjv : jsGet r c = v := by
                      unfold jsGet
                      rw [hv]
                      rfl
                    have hov2 : jsGet (overwrite old (mkUpdate r old)) c = v := hov
                    intro hne
                    rw [hov2, hjv] at hne
                    have hprimv : ∀ w, v = some w → isPrim w = true := by
                      intro w hw
                      exact primValued_jsGet (hprim r hr) c w (by rw [hjv, hw])
                    have hrefl : jsValEq v v = true := jsValEq_refl hprimv
                    unfold jsNe at hne
                    rw [hrefl] at hne
                    simp at hne
                  · rw [if_neg hck] at hov
                    have hov2 : jsGet (overwrite old (mkUpdate r old)) c =
                        jsGet old c := hov
                    intro hne
                    rw [hov2] at hne
                    have hveq := not_changed_of_mem_not_mem hcr hck
                    unfold jsNe at hne
                    rw [hveq] at hne
                    simp at hne
                rw [hempty]
                rfl
        | none =>
          -- unmatched: the record was inserted
          have hgneg := guard_false_of_pass filters r hpass
          have hcomp : insComp L keyColIds filters r = some r := by
            unfold insComp
            rw [if_neg hgneg, hm1]
          have hrI : r ∈ I := by
            rw [hIdef]
            exact List.mem_filterMap.mpr ⟨r, hr, hcomp⟩
          obtain ⟨n, hmemIns⟩ := applyInsFrom_mem_of_mem I (nextId T1) r hrI
          have hkey2 : recKey keyColIds (rsetV r "id" (some (.num n))) =
              recKey keyColIds r := recKey_rsetV_id hidnk r _
          have hrow2F2 : rsetV r "id" (some (.num n)) ∈ F2 := by
            rw [hF2eq]
            apply List.mem_append_right
            apply mem_serverFetch_of_matches filters hmemIns
            intro f hfc
            have hsm : serverMatches (rsetV r "id" (some (.num n))) f =
                serverMatches r f := by
              apply serverMatches_congr keyColIds
              · intro p hp
                have hpre2 : syncPrecondOk keyColIds (some f) = true := by
                  rw [← hfc]
                  exact hpre
                exact syncPrecond_sub hpre2 p hp
              · intro c hc
                have hcne : ¬ c = "id" := fun he => hidnk (by rw [← he]; exact hc)
                rw [jsGet_rsetV, if_neg hcne]
            rw [hsm]
            exact serverMatches_of_filterMatches (hpass f hfc)
          refine ⟨rsetV r "id" (some (.num n)), ?_, ?_⟩
          · rw [hL2]
            exact find?_eq_some_unique (recKey keyColIds) (recKey keyColIds r)
              F2 hF2keys _ hrow2F2 hkey2
          · have hempty : changedKeysOf r (rsetV r "id" (some (.num n))) = [] := by
              unfold changedKeysOf
              rw [List.filter_eq_nil_iff]
              intro c hcr
              have hcne : ¬ c = "id" := fun he => hnoid r hr (by rw [← he]; exact hcr)
              intro hne
              rw [jsGet_rsetV, if_neg hcne] at hne
              have hprimv : ∀ w, jsGet r c = some w → isPrim w = true :=
                fun w hw => primValued_jsGet (hprim r hr) c w hw
              have hrefl : jsValEq (jsGet r c) (jsGet r c) = true := jsValEq_refl hprimv
              unfold jsNe at hne
              rw [hrefl] at hne
              simp at hne
            rw [hempty]
            rfl
      -- conclude: the second run stages nothing
      have hupd2 : ∀ r ∈ records,
          updComp (buildLookup keyColIds F2) keyColIds filters r = none := by
        intro r hr
        by_cases hg : filteredOut filters r = true
        · unfold updComp
          rw [if_pos hg]
        · have hpass : ∀ f, filters = some f → filterMatches r f = true := by
            intro f hf
            rw [hf] at hg
            simpa [filteredOut] using hg
          obtain ⟨row2, hm, he⟩ := hcore r hr hpass
          exact updComp_none_of_nochange hm he
      have hins2 : ∀ r ∈ records,
          insComp (buildLookup keyColIds F2) keyColIds filters r = none := by
        intro r hr
        by_cases hg : filteredOut filters r = true
        · unfold insComp
          rw [if_pos hg]
        · have hpass : ∀ f, filters = some f → filterMatches r f = true := by
            intro f hf
            rw [hf] at hg
            simpa [filteredOut] using hg
          obtain ⟨row2, hm, -⟩ := hcore r hr hpass
          exact insComp_none_of_match hm
      unfold syncStagedOps
      rw [show serverFetch T2 filters = F2 from hF2def.symm, syncPlan_eq_filterMap,
        List.filterMap_eq_nil_iff.mpr hupd2, List.filterMap_eq_nil_iff.mpr hins2]

/-- C1, counterexample: syncTable is not idempotent for every table state and
input.  An input record that carries its own `id` column differing from the
matched row's id stages the update `[{id: 1}]`; applying it leaves the table
unchanged (the server row already has id 1), so a second run stages exactly
the same nonempty update list. -/
theorem c1_counterexample :
    (syncTableRun 500 "Table1"
        [[("id", some (CellValue.num 1)), ("k", some (CellValue.num 1))]]
        [[("k", some (CellValue.num 1)), ("id", some (CellValue.num 99))]]
        ["k"] none).2 =
      Except.ok [[("id", some (CellValue.num 1)), ("k", some (CellValue.num 1))]] ∧
    syncStagedOps [[("id", some (CellValue.num 1)), ("k", some (CellValue.num 1))]]
        [[("k", some (CellValue.num 1)), ("id", some (CellValue.num 99))]]
        ["k"] none ≠ (([] : List IRecord), ([] : List IRecord)) :=
  ⟨rfl, by decide⟩

/-- C1, witness: one well-formed record updating a one-row table; after the
first run succeeds the second run stages nothing. -/
theorem c1_witness :
    (0 < 500) ∧
    syncPrecondOk ["Name"] none = true ∧
    (∀ r ∈ [[("Name", some (CellValue.str "eggs")), ("Qty", some (CellValue.num 0))]],
      WFRec r) ∧
    (∀ r ∈ [[("Name", some (CellValue.str "eggs")), ("Qty", some (CellValue.num 0))]],
      primValued r = true) ∧
    (∀ r ∈ [[("Name", some (CellValue.str "eggs")), ("Qty", some (CellValue.num 0))]],
      ¬ "id" ∈ rkeys r) ∧
    (([[("Name", some (CellValue.str "eggs")), ("Qty", some (CellValue.num 0))]] :
        List IRecord).map (recKey ["Name"])).Nodup ∧
    (¬ "id" ∈ ["Name"]) ∧
    (idsOf [[("id", some (CellValue.num 1)), ("Name", some (CellValue.str "eggs")),
        ("Qty", some (CellValue.num 12))]]).Nodup ∧
    (([[("id", some (CellValue.num 1)), ("Name", some (CellValue.str "eggs")),
        ("Qty", some (CellValue.num 12))]] : List IRecord).map (recKey ["Name"])).Nodup ∧
    syncStagedOps
      [[("id", some (CellValue.num 1)), ("Name", some (CellValue.str "eggs")),
        ("Qty", some (CellValue.num 0))]]
      [[("Name", some (CellValue.str "eggs")), ("Qty", some (CellValue.num 0))]]
      ["Name"] none = ([], []) :=
  ⟨by omega, rfl, by decide, by decide, by decide, List.nodup_singleton _,
    by decide, List.nodup_singleton _, List.nodup_singleton _,
    c1_sync_idempotent 500 "Table1"
      [[("id", some (CellValue.num 1)), ("Name", some (CellValue.str "eggs")),
        ("Qty", some (CellValue.num 12))]]
      [[("Name", some (CellValue.str "eggs")), ("Qty", some (CellValue.num 0))]]
      ["Name"] none (by omega) rfl (by decide) (by decide) (by decide)
      (List.nodup_singleton _) (by decide) (List.nodup_singleton _)
      (List.nodup_singleton _)
      [[("id", some (CellValue.num 1)), ("Name", some (CellValue.str "eggs")),
        ("Qty", some (CellValue.num 0))]] rfl⟩

end GristApi
